import Mathlib

/-!
Verification of the pdb-addr2line resolution engine (`src/lib.rs`).

This file gives a shallow embedding of the core of the crate: the section
contribution index, the public and per-module procedure indices, the resolver
cascade (`lookup_function`), the line table and inline tree builders, frame
stack assembly (`find_frames`), function enumeration (`functions()`), and the
lazily populated module caches.

Modelling conventions:
* Machine integers (`u16`, `u32`) are `Nat`s; additions that the Rust code
  performs on `u32` values are reduced modulo `2^32` (release-mode wrapping).
* External collaborators (the PDB container parser, the address map, the type
  formatter, the string table) are parameters of the embedding, collected in
  the `Env` structure. Symbol streams and line records arrive as lists, the
  way the code consumes them through fallible iterators.
* Rust `sort_unstable*` calls are modelled with the stable `List.insertionSort`
  over the same comparison key; where ties make the unstable order observable
  this choice is called out in the corresponding theorem.
* Panics (`unwrap`, out-of-bounds indexing) are modelled as `Option.none`
  propagation; recursion that Rust drives by a physically advancing iterator
  is given explicit fuel, with exhaustion also mapped to `none`.
* `RangeSet<u32>` from the `range_collections` crate is modelled as
  `Finset Nat`; its iteration over maximal disjoint intervals is modelled by
  `toIntervals`.
-/

/-- Wrap-around of `u32` arithmetic. -/
def u32 (n : Nat) : Nat := n % 4294967296

/-- `pdb::PdbInternalSectionOffset`: a (section index, byte offset) pair. -/
structure PdbOffset where
  sectionIdx : Nat
  offset : Nat
deriving DecidableEq, Inhabited, Repr

/-- The two fatal errors raised by `compute_section_contributions`
(`Error::UnorderedSectionContributions`, `Error::OverlappingSectionContributions`). -/
inductive PdbError where
  | unorderedSectionContributions (module_index : Nat) (section_index : Nat)
  | overlappingSectionContributions (section_index : Nat) (module1 : Nat) (module2 : Nat)
deriving DecidableEq, Repr

/-- A raw `pdb::DBISectionContribution` record as consumed by
`compute_section_contributions`: module, section, start offset and size. -/
structure DBISectionContribution where
  sectionIdx : Nat
  offset : Nat
  size : Nat
  module : Nat
deriving DecidableEq, Inhabited, Repr

/-- The computed end offset of a raw contribution record
(`sc.offset.offset + sc.size` on `u32`). -/
def DBISectionContribution.endOffset (sc : DBISectionContribution) : Nat :=
  u32 (sc.offset + sc.size)

/-- `ModuleSectionContribution` from the source: one merged contiguous span.
The field order matters for the derived lexicographical sort in Rust. -/
structure ModuleSectionContribution where
  section_index : Nat
  start_offset : Nat
  end_offset : Nat
  module_index : Nat
deriving DecidableEq, Inhabited, Repr

/-- The derived `Ord` on `ModuleSectionContribution`: lexicographic on
(section_index, start_offset, end_offset, module_index). -/
def mscLE (a b : ModuleSectionContribution) : Prop :=
  a.section_index < b.section_index ∨
    (a.section_index = b.section_index ∧
      (a.start_offset < b.start_offset ∨
        (a.start_offset = b.start_offset ∧
          (a.end_offset < b.end_offset ∨
            (a.end_offset = b.end_offset ∧ a.module_index ≤ b.module_index)))))

instance : DecidableRel mscLE := fun a b => by unfold mscLE; infer_instance

instance : IsTotal ModuleSectionContribution mscLE :=
  ⟨by intro a b; unfold mscLE; omega⟩

instance : IsTrans ModuleSectionContribution mscLE :=
  ⟨by intro a b c; unfold mscLE; omega⟩

/-- The inner merge loop of `compute_section_contributions`: consume the
remaining raw records, merging consecutive records of the same
(section, module) into `current_combined_sc`, dropping zero-size records, and
failing with the unordered error when an end offset decreases within a run. -/
def mergeSCs (cur : ModuleSectionContribution) :
    List DBISectionContribution → Except PdbError (List ModuleSectionContribution)
  | [] => .ok [cur]
  | sc :: rest =>
    if sc.size = 0 then mergeSCs cur rest
    else
      let section_index := sc.sectionIdx
      let start_offset := sc.offset
      let end_offset := sc.endOffset
      let module_index := sc.module
      if section_index = cur.section_index ∧ module_index = cur.module_index then
        if end_offset < cur.end_offset then
          .error (.unorderedSectionContributions module_index section_index)
        else
          mergeSCs { cur with end_offset := end_offset } rest
      else
        match mergeSCs ⟨section_index, start_offset, end_offset, module_index⟩ rest with
        | .error e => .error e
        | .ok tail => .ok (cur :: tail)

/-- The outer loop of `compute_section_contributions` up to the sort: skip
zero-size records until the first combined span can be seeded, then run the
merge loop over the remaining records. -/
def mergeSCsTop : List DBISectionContribution → Except PdbError (List ModuleSectionContribution)
  | [] => .ok []
  | sc :: rest =>
    if sc.size = 0 then mergeSCsTop rest
    else mergeSCs ⟨sc.sectionIdx, sc.offset, sc.endOffset, sc.module⟩ rest

/-- The adjacent-entry overlap scan at the end of `compute_section_contributions`:
walking the sorted list, error out when an entry starts before the previous
entry of the same section ends. -/
def checkOverlap : List ModuleSectionContribution → Except PdbError Unit
  | [] => .ok ()
  | [_] => .ok ()
  | a :: b :: rest =>
    if b.section_index = a.section_index ∧ b.start_offset < a.end_offset then
      .error (.overlappingSectionContributions b.section_index a.module_index b.module_index)
    else checkOverlap (b :: rest)

/-- `compute_section_contributions`: merge the raw records, sort the merged
spans by the derived lexicographic order, and verify that no two spans of the
same section overlap. -/
def computeSectionContributions (raw : List DBISectionContribution) :
    Except PdbError (List ModuleSectionContribution) :=
  match mergeSCsTop raw with
  | .error e => .error e
  | .ok merged =>
    let sorted := List.insertionSort mscLE merged
    match checkOverlap sorted with
    | .error e => .error e
    | .ok _ => .ok sorted

/-- The loop of Rust's `slice::binary_search_by`, with the probed midpoint
`left + (right - left) / 2`. `Except.error i` is the `Err(i)` insertion-point
result, `Except.ok i` the `Ok(i)` hit. The loop always terminates because the
width `right - left` shrinks; we drive it with fuel, which the wrapper always
supplies in sufficient quantity. -/
def rustBinarySearchGo [Inhabited α] (f : α → Ordering) (xs : List α) :
    Nat → Nat → Nat → Except Nat Nat
  | 0, left, _right => .error left
  | fuel + 1, left, right =>
    if left < right then
      let mid := left + (right - left) / 2
      match f (xs.getD mid default) with
      | .lt => rustBinarySearchGo f xs fuel (mid + 1) right
      | .gt => rustBinarySearchGo f xs fuel left mid
      | .eq => .ok mid
    else .error left

/-- Rust's `slice::binary_search_by` with comparator `f` (comparing a probed
element against the target). -/
def rustBinarySearchBy [Inhabited α] (f : α → Ordering) (xs : List α) : Except Nat Nat :=
  rustBinarySearchGo f xs xs.length 0 xs.length

/-- The "greatest entry with key ≤ target" selection that the code builds from
a `binary_search_by` result: `Ok(i) → i`, `Err(0) → None`, `Err(i) → i - 1`. -/
def bsearchLeIdx [Inhabited α] (f : α → Ordering) (xs : List α) : Option Nat :=
  match rustBinarySearchBy f xs with
  | .ok i => some i
  | .error 0 => none
  | .error i => some (i - 1)

/-- Helper loop for `dedupByKey`: `prev` is the last retained element. -/
def dedupByKeyGo [DecidableEq β] (key : α → β) (prev : α) : List α → List α
  | [] => []
  | a :: rest =>
    if key a = key prev then dedupByKeyGo key prev rest
    else a :: dedupByKeyGo key a rest

/-- Rust's `Vec::dedup_by_key`: remove all but the first of consecutive
elements that map to the same key. -/
def dedupByKey [DecidableEq β] (key : α → β) : List α → List α
  | [] => []
  | a :: rest => a :: dedupByKeyGo key a rest

/-- Comparison of `Nat`s as `Ordering` (Rust `Ord::cmp`). -/
def natCmp (a b : Nat) : Ordering :=
  if a < b then .lt else if a = b then .eq else .gt

/-- Lexicographic comparison of key pairs (Rust `Ord` on tuples). -/
def pairCmp (a b : Nat × Nat) : Ordering :=
  (natCmp a.1 b.1).then (natCmp a.2 b.2)

/-- One record from a parsed global symbol: either a `SymbolData::Public`
(with its `function` flag, name and offset), or any other / unparseable
symbol, which the construction loop ignores. -/
inductive GlobalSymbolData where
  | publicSym (function : Bool) (name : String) (offset : PdbOffset)
  | other
deriving DecidableEq, Inhabited, Repr

/-- `PublicSymbolFunction`: start offset and (decorated) name of a public
function symbol. -/
structure PublicSymbolFunction where
  start_offset : PdbOffset
  name : String
deriving DecidableEq, Inhabited, Repr

/-- The sort key of the public function index: (section, offset). -/
def PublicSymbolFunction.key (p : PublicSymbolFunction) : Nat × Nat :=
  (p.start_offset.sectionIdx, p.start_offset.offset)

/-- The `sort_unstable_by_key` ordering of the public function index. -/
def pubLE (p q : PublicSymbolFunction) : Prop :=
  p.key.1 < q.key.1 ∨ (p.key.1 = q.key.1 ∧ p.key.2 ≤ q.key.2)

instance : DecidableRel pubLE := fun a b => by unfold pubLE; infer_instance

instance : IsTotal PublicSymbolFunction pubLE :=
  ⟨by intro a b; unfold pubLE; omega⟩

instance : IsTrans PublicSymbolFunction pubLE :=
  ⟨by intro a b c; unfold pubLE; omega⟩

/-- The collection phase of `Context::new_from_parts`: keep every public
symbol whose `function` flag is set, in stream order. -/
def collectPublicFunctions (syms : List GlobalSymbolData) : List PublicSymbolFunction :=
  syms.filterMap fun s =>
    match s with
    | .publicSym true name offset => some ⟨offset, name⟩
    | _ => none

/-- The public function index of `Context::new_from_parts`: collect, sort by
(section, offset), dedup by exact start offset. -/
def computePublicFunctions (syms : List GlobalSymbolData) : List PublicSymbolFunction :=
  dedupByKey (fun p => p.start_offset)
    (List.insertionSort pubLE (collectPublicFunctions syms))

/-- One line record produced by `Inlinee::lines(proc_offset, site)` for an
inline site: offset, optional length, file index and start line. -/
structure InlineeLine where
  offset : PdbOffset
  length : Option Nat
  file_index : Nat
  line_start : Nat
deriving DecidableEq, Inhabited, Repr

/-- A parsed `InlineSiteSymbol`: inlinee id, end symbol index, and the line
contributions that the external `Inlinee::lines` iterator decodes for this
site occurrence (already rebased onto the call site address). -/
structure InlineSiteData where
  inlinee : Nat
  endIndex : Nat
  lines : List InlineeLine
deriving DecidableEq, Inhabited, Repr

/-- A parsed `ProcedureSymbol`: offset, length, name, end symbol index and
type index. -/
structure ProcedureData where
  offset : PdbOffset
  len : Nat
  name : String
  type_index : Nat
  endIndex : Nat
deriving DecidableEq, Inhabited, Repr

/-- A parsed `ThunkSymbol`: offset, length, name and end symbol index. -/
structure ThunkData where
  offset : PdbOffset
  len : Nat
  name : String
  endIndex : Nat
deriving DecidableEq, Inhabited, Repr

/-- The result of `symbol.parse()` for the cases the code distinguishes;
parse errors and all other symbol kinds fall into `other`. -/
inductive SymbolData where
  | procedure (p : ProcedureData)
  | thunk (t : ThunkData)
  | inlineSite (s : InlineSiteData)
  | other
deriving DecidableEq, Inhabited, Repr

/-- A symbol of a module's symbol stream: its `SymbolIndex` and parsed data. -/
structure PdbSymbol where
  index : Nat
  data : SymbolData
deriving DecidableEq, Inhabited, Repr

/-- The contents of one parsed module (`pdb::ModuleInfo`), reduced to what the
resolver consumes: the symbol stream and the key set of the inlinee table. -/
structure ModuleStream where
  symbols : List PdbSymbol
  inlineeKeys : List Nat
deriving DecidableEq, Inhabited, Repr

/-- One entry of a module's line program for a procedure: internal offset,
file index, start line. -/
structure LineInfoRec where
  offset : PdbOffset
  file_index : Nat
  line_start : Nat
deriving DecidableEq, Inhabited, Repr

/-- The external collaborators of the resolver: the address map (both
directions), the global symbol stream, the raw section contribution stream,
the module list with the on-demand module-info fetch, the line programs, the
string table and the type formatter. -/
structure Env where
  rvaToOffset : Nat → Option PdbOffset
  offsetToRva : PdbOffset → Option Nat
  globalSymbols : List GlobalSymbolData
  rawSectionContributions : List DBISectionContribution
  moduleCount : Nat
  moduleInfo : Nat → Except Unit (Option ModuleStream)
  linesAtOffset : Nat → PdbOffset → List LineInfoRec
  fileName : Nat → Nat → Option String
  formatFunction : String → Nat → Option String
  formatId : Nat → Option String

/-- `ProcedureSymbolFunction`: one function or thunk body of a module. -/
structure ProcedureSymbolFunction where
  offset : PdbOffset
  len : Nat
  name : String
  symbol_index : Nat
  end_symbol_index : Nat
  type_index : Nat
deriving DecidableEq, Inhabited, Repr

/-- Does a string start with the reserved `'?'` marker byte of decorated
names (`name.as_bytes().starts_with(&[b'?'])`)? -/
def isDecoratedName (name : String) : Bool :=
  match name.data with
  | c :: _ => c = '?'
  | [] => false

/-- The naming policy of `compute_module_procedures` for a `Procedure` record:
with a type reference keep the bare name; otherwise prefer a decorated public
symbol name found at the exact same offset. -/
def procedureEntryName (publics : List PublicSymbolFunction) (proc : ProcedureData) : String :=
  if proc.type_index ≠ 0 then proc.name
  else
    match rustBinarySearchBy
        (fun f => pairCmp f.key (proc.offset.sectionIdx, proc.offset.offset)) publics with
    | .ok public_fun_index =>
      let name := (publics.getD public_fun_index default).name
      if isDecoratedName name then name else proc.name
    | .error _ => proc.name

/-- The per-symbol step of `compute_module_procedures`: a nonzero-length
`Procedure` or `Thunk` becomes one `ProcedureSymbolFunction`. -/
def procedureOfSymbol (publics : List PublicSymbolFunction) (sym : PdbSymbol) :
    Option ProcedureSymbolFunction :=
  match sym.data with
  | .procedure proc =>
    if proc.len = 0 then none
    else some ⟨proc.offset, proc.len, procedureEntryName publics proc,
      sym.index, proc.endIndex, proc.type_index⟩
  | .thunk thunk =>
    if thunk.len = 0 then none
    else some ⟨thunk.offset, thunk.len, thunk.name, sym.index, thunk.endIndex, 0⟩
  | _ => none

/-- The `sort_unstable_by_key` ordering of a module's procedure index. -/
def procLE (p q : ProcedureSymbolFunction) : Prop :=
  p.offset.sectionIdx < q.offset.sectionIdx ∨
    (p.offset.sectionIdx = q.offset.sectionIdx ∧ p.offset.offset ≤ q.offset.offset)

instance : DecidableRel procLE := fun a b => by unfold procLE; infer_instance

instance : IsTotal ProcedureSymbolFunction procLE :=
  ⟨by intro a b; unfold procLE; omega⟩

instance : IsTrans ProcedureSymbolFunction procLE :=
  ⟨by intro a b c; unfold procLE; omega⟩

/-- The pure core of `compute_module_procedures`, given the parsed module
stream: collect nonzero-length procedures and thunks, sort by
(section, offset), dedup by exact offset. -/
def proceduresFromStream (publics : List PublicSymbolFunction) (m : ModuleStream) :
    List ProcedureSymbolFunction :=
  dedupByKey (fun p => p.offset)
    (List.insertionSort procLE (m.symbols.filterMap (procedureOfSymbol publics)))

/-- `compute_module_procedures`: fetch the module info on demand and build the
procedure index. `none` models the panic on an out-of-range module index
(`self.modules[module_index as usize]`); `Except.error` propagates a failed
module-info fetch; a module without a symbol stream yields an empty index. -/
def computeModuleProcedures (env : Env) (module_index : Nat) :
    Option (Except Unit (List ProcedureSymbolFunction)) :=
  if module_index < env.moduleCount then
    match env.moduleInfo module_index with
    | .error e => some (.error e)
    | .ok none => some (.ok [])
    | .ok (some m) =>
      some (.ok (proceduresFromStream (computePublicFunctions env.globalSymbols) m))
  else none

/-- The immutable part of a constructed `Context`: the environment plus the
indices built eagerly by `new_from_parts`. -/
structure Ctx where
  env : Env
  section_contributions : List ModuleSectionContribution
  public_functions : List PublicSymbolFunction

/-- `Context::new_from_parts`: build the public index and the section
contribution index; a fatal contribution error aborts construction. -/
def newFromParts (env : Env) : Except PdbError Ctx :=
  match computeSectionContributions env.rawSectionContributions with
  | .error e => .error e
  | .ok scs => .ok ⟨env, scs, computePublicFunctions env.globalSymbols⟩

/-- The section contribution comparator of `lookup_function`: matching the
entry containing the internal offset `offset`. -/
def scCompare (offset : PdbOffset) (sc : ModuleSectionContribution) : Ordering :=
  if sc.section_index < offset.sectionIdx then .lt
  else if sc.section_index > offset.sectionIdx then .gt
  else if sc.end_offset ≤ offset.offset then .lt
  else if sc.start_offset > offset.offset then .gt
  else .eq

/-- The procedure comparator of `lookup_function`: matching the procedure
whose `[offset, offset + len)` contains the internal offset (with the `u32`
end address computation of the code). -/
def procCompare (offset : PdbOffset) (p : ProcedureSymbolFunction) : Ordering :=
  if p.offset.sectionIdx < offset.sectionIdx then .lt
  else if p.offset.sectionIdx > offset.sectionIdx then .gt
  else if u32 (p.offset.offset + p.len) ≤ offset.offset then .lt
  else if p.offset.offset > offset.offset then .gt
  else .eq

/-- The result of `lookup_function`: a public symbol or a procedure of one
module. -/
inductive PublicOrProcedureSymbol where
  | publicSym (f : PublicSymbolFunction)
  | procedure (module_index : Nat) (f : ProcedureSymbolFunction)
deriving DecidableEq, Repr

/-- `Context::lookup_function`: the resolver cascade. The outer `Option` is
`none` when the code would panic (out-of-range module index); the inner
`Option` is the code's own "no match" result. -/
def lookupFunction (ctx : Ctx) (probe : Nat) : Option (Option PublicOrProcedureSymbol) :=
  match ctx.env.rvaToOffset probe with
  | none => some none
  | some offset =>
    match rustBinarySearchBy (scCompare offset) ctx.section_contributions with
    | .error _ => some none
    | .ok sc_index =>
      let module_index := (ctx.section_contributions.getD sc_index default).module_index
      match computeModuleProcedures ctx.env module_index with
      | none => none
      | some (.error _) => some none
      | some (.ok module_procedures) =>
        match rustBinarySearchBy (procCompare offset) module_procedures with
        | .ok procedure_index =>
          some (some (.procedure module_index (module_procedures.getD procedure_index default)))
        | .error _ =>
          match bsearchLeIdx
              (fun p => pairCmp p.key (offset.sectionIdx, offset.offset))
              ctx.public_functions with
          | none => some none
          | some i =>
            let fun_ := ctx.public_functions.getD i default
            if fun_.start_offset.sectionIdx ≠ offset.sectionIdx then some none
            else some (some (.publicSym fun_))

/-- `Function`: the presentation value returned by `find_function` and
`functions()`. -/
structure FunctionValue where
  start_rva : Nat
  end_rva : Option Nat
  name : Option String
deriving DecidableEq, Inhabited, Repr

/-- `Context::find_function`: resolve the probe and render the match, with no
file or line information. -/
def findFunction (ctx : Ctx) (probe : Nat) : Option (Option FunctionValue) :=
  match lookupFunction ctx probe with
  | none => none
  | some none => some none
  | some (some (.publicSym f)) =>
    match ctx.env.offsetToRva f.start_offset with
    | none => some none
    | some start_rva => some (some ⟨start_rva, none, some f.name⟩)
  | some (some (.procedure _ f)) =>
    match ctx.env.offsetToRva f.offset with
    | none => some none
    | some start_rva =>
      some (some ⟨start_rva, some (u32 (start_rva + f.len)), ctx.env.formatFunction f.name f.type_index⟩)

/-- `CachedLineInfo`: one line breakpoint of a procedure, with its start
address already converted to an rva. -/
structure CachedLineInfo where
  start_offset : Nat
  file_index : Nat
  line_start : Nat
deriving DecidableEq, Inhabited, Repr

/-- `compute_procedure_lines`: materialize the line records of the module's
line program at the procedure offset, converting each start offset to an rva
(`none` models the `to_rva().unwrap()` panic). -/
def computeProcedureLines (env : Env) (module_index : Nat)
    (proc : ProcedureSymbolFunction) : Option (List CachedLineInfo) :=
  (env.linesAtOffset module_index proc.offset).mapM fun li =>
    (env.offsetToRva li.offset).map fun rva => ⟨rva, li.file_index, li.line_start⟩

/-- The line-table lookup of `find_frames`: greatest breakpoint with
`start ≤ probe`, rendered as (file, line); `(none, none)` when the probe
precedes every breakpoint. -/
def lineSearch (env : Env) (module_index : Nat) (lines : List CachedLineInfo)
    (probe : Nat) : Option String × Option Nat :=
  match bsearchLeIdx (fun li => natCmp li.start_offset probe) lines with
  | none => (none, none)
  | some i =>
    let line_info := lines.getD i default
    (env.fileName module_index line_info.file_index, some line_info.line_start)

/-- `InlineRange` from the source: one contiguous address block of one inline
activation at one call depth. -/
structure InlineRange where
  start_offset : Nat
  end_offset : Nat
  call_depth : Nat
  inlinee : Nat
  file_index : Option Nat
  line_start : Option Nat
deriving DecidableEq, Inhabited, Repr

/-- Group a strictly ascending list of addresses into maximal runs of
consecutive values, rendered as half-open `(start, end)` intervals; `s` and
`e` delimit the run being accumulated. -/
def groupRunsGo (s e : Nat) : List Nat → List (Nat × Nat)
  | [] => [(s, e + 1)]
  | b :: rest => if b = e + 1 then groupRunsGo s b rest else (s, e + 1) :: groupRunsGo b b rest

/-- Group a strictly ascending address list into maximal half-open intervals. -/
def groupRuns : List Nat → List (Nat × Nat)
  | [] => []
  | a :: rest => groupRunsGo a a rest

/-- The members of a `Finset Nat` as a strictly ascending list (enumerated by
filtering an initial segment, so that it evaluates by kernel reduction). -/
def finsetSortedList (x : Finset Nat) : List Nat :=
  match x.max with
  | none => []
  | some m => (List.range (m + 1)).filter (· ∈ x)

/-- The iteration of `range_collections::RangeSet` over its maximal disjoint
intervals, for the `Finset Nat` model: sort the members and group runs. -/
def toIntervals (x : Finset Nat) : List (Nat × Nat) :=
  groupRuns (finsetSortedList x)

/-- Is an address covered by one of a list of half-open intervals? -/
def coveredBy (l : List (Nat × Nat)) (a : Nat) : Prop :=
  ∃ p ∈ l, p.1 ≤ a ∧ a < p.2

/-- The own-lines loop of `process_inlinee_symbols`: walk the line
contributions of the site's inlinee, skipping zero or unknown lengths, pushing
one `InlineRange` per contribution and accumulating the site's interval set
and the first contribution's file index. `none` models the
`to_rva().unwrap()` panic. -/
def processOwnLinesGo (env : Env) (call_depth : Nat) (inlinee_id : Nat) :
    List InlineeLine → List InlineRange → Finset Nat → Option Nat →
    Option (List InlineRange × Finset Nat × Option Nat)
  | [], lines, ranges, file_index => some (lines, ranges, file_index)
  | li :: rest, lines, ranges, file_index =>
    match li.length with
    | none => processOwnLinesGo env call_depth inlinee_id rest lines ranges file_index
    | some 0 => processOwnLinesGo env call_depth inlinee_id rest lines ranges file_index
    | some length =>
      match env.offsetToRva li.offset with
      | none => none
      | some start_offset =>
        let end_offset := u32 (start_offset + length)
        processOwnLinesGo env call_depth inlinee_id rest
          (lines ++ [⟨start_offset, end_offset, call_depth, inlinee_id,
            some li.file_index, some li.line_start⟩])
          (ranges ∪ Finset.Ico start_offset end_offset)
          (if file_index = none then some li.file_index else file_index)

/-- The head of `process_inlinee_symbols`: the site's own line contributions,
guarded by the lookup of its inlinee in the module's inlinee table. -/
def processOwnLines (env : Env) (inlineeKeys : List Nat) (site : InlineSiteData)
    (call_depth : Nat) (lines : List InlineRange) :
    Option (List InlineRange × Finset Nat × Option Nat) :=
  if site.inlinee ∈ inlineeKeys then
    processOwnLinesGo env call_depth site.inlinee site.lines lines ∅ none
  else some (lines, ∅, none)

/-- `SymbolIter::skip_to(index)`: advance the symbol cursor to the symbol at
the given index. -/
def skipTo (index : Nat) (syms : List PdbSymbol) : List PdbSymbol :=
  syms.dropWhile (fun s => s.index < index)

/-- The gap-patch of `process_inlinee_symbols`: one synthesized `InlineRange`
per maximal missing interval, at the parent's depth, with the parent site's
inlinee, the parent's accumulated file index and no line. -/
def gapRange (site : InlineSiteData) (call_depth : Nat) (file_index : Option Nat)
    (p : Nat × Nat) : InlineRange :=
  ⟨p.1, p.2, call_depth, site.inlinee, file_index, none⟩

mutual

/-- `Context::process_inlinee_symbols`: own line contributions, recursion into
nested inline sites, then the coverage-invariant gap patch. Returns the pushed
ranges, the site's interval set and the remaining symbol cursor. -/
def processInlineeSymbols (env : Env) (inlineeKeys : List Nat)
    (proc_offset : PdbOffset) :
    Nat → List PdbSymbol → InlineSiteData → Nat → List InlineRange →
    Option (List InlineRange × Finset Nat × List PdbSymbol)
  | 0, _, _, _, _ => none
  | fuel + 1, syms, site, call_depth, lines =>
    match processOwnLines env inlineeKeys site call_depth lines with
    | none => none
    | some (lines, ranges, file_index) =>
      match inlineChildLoop env inlineeKeys proc_offset fuel syms site.endIndex call_depth lines with
      | none => none
      | some (lines, callee_ranges, rest) =>
        if ¬ callee_ranges ⊆ ranges then
          let missing_ranges := callee_ranges \ ranges
          some (lines ++ (toIntervals missing_ranges).map (gapRange site call_depth file_index),
            ranges ∪ missing_ranges, rest)
        else
          some (lines, ranges, rest)

/-- The child-symbol loop of `process_inlinee_symbols`: consume symbols until
one at or past the site's end index, skipping nested procedures and recursing
into nested inline sites at depth + 1, accumulating the union of the
children's interval sets. -/
def inlineChildLoop (env : Env) (inlineeKeys : List Nat) (proc_offset : PdbOffset) :
    Nat → List PdbSymbol → Nat → Nat → List InlineRange →
    Option (List InlineRange × Finset Nat × List PdbSymbol)
  | 0, _, _, _, _ => none
  | fuel + 1, syms, site_end, call_depth, lines =>
    match syms with
    | [] => some (lines, ∅, [])
    | s :: rest =>
      if s.index ≥ site_end then some (lines, ∅, rest)
      else
        match s.data with
        | .procedure p =>
          inlineChildLoop env inlineeKeys proc_offset fuel (skipTo p.endIndex rest)
            site_end call_depth lines
        | .inlineSite site2 =>
          match processInlineeSymbols env inlineeKeys proc_offset fuel rest site2
              (call_depth + 1) lines with
          | none => none
          | some (lines, callee_ranges, rest2) =>
            match inlineChildLoop env inlineeKeys proc_offset fuel rest2 site_end
                call_depth lines with
            | none => none
            | some (lines, callee_ranges2, rest3) =>
              some (lines, callee_ranges ∪ callee_ranges2, rest3)
        | _ => inlineChildLoop env inlineeKeys proc_offset fuel rest site_end call_depth lines

end

/-- The top-level symbol loop of `compute_procedure_inline_ranges`: consume
symbols until the procedure's end symbol index, skipping nested procedures and
processing top-level inline sites at depth 0. -/
def procTopLoop (env : Env) (inlineeKeys : List Nat) (proc_offset : PdbOffset) :
    Nat → List PdbSymbol → Nat → List InlineRange → Option (List InlineRange)
  | 0, _, _, _ => none
  | fuel + 1, syms, end_index, lines =>
    match syms with
    | [] => some lines
    | s :: rest =>
      if s.index ≥ end_index then some lines
      else
        match s.data with
        | .procedure p =>
          procTopLoop env inlineeKeys proc_offset fuel (skipTo p.endIndex rest) end_index lines
        | .inlineSite site =>
          match processInlineeSymbols env inlineeKeys proc_offset fuel rest site 0 lines with
          | none => none
          | some (lines, _, rest2) =>
            procTopLoop env inlineeKeys proc_offset fuel rest2 end_index lines
        | _ => procTopLoop env inlineeKeys proc_offset fuel rest end_index lines

/-- The final sort order of `compute_procedure_inline_ranges`: call depth
ascending, then start offset ascending ("breadth-first traversal order"). -/
def inlineRangeLE (r1 r2 : InlineRange) : Prop :=
  r1.call_depth < r2.call_depth ∨
    (r1.call_depth = r2.call_depth ∧ r1.start_offset ≤ r2.start_offset)

instance : DecidableRel inlineRangeLE := fun a b => by unfold inlineRangeLE; infer_instance

instance : IsTotal InlineRange inlineRangeLE :=
  ⟨by intro a b; unfold inlineRangeLE; omega⟩

instance : IsTrans InlineRange inlineRangeLE :=
  ⟨by intro a b c; unfold inlineRangeLE; omega⟩

/-- `Context::compute_procedure_inline_ranges`: walk the procedure's nested
symbols and sort all produced ranges by (call depth, start offset). -/
def computeProcedureInlineRanges (env : Env) (m : ModuleStream)
    (proc : ProcedureSymbolFunction) : Option (List InlineRange) :=
  let syms := (skipTo proc.symbol_index m.symbols).drop 1
  match procTopLoop env m.inlineeKeys proc.offset (2 * syms.length + 2) syms
      proc.end_symbol_index [] with
  | none => none
  | some lines => some (List.insertionSort inlineRangeLE lines)

/-- `Frame`: one frame of the inline stack. -/
structure Frame where
  function : Option String
  file : Option String
  line : Option Nat
deriving DecidableEq, Inhabited, Repr

/-- `FunctionFrames`: the result of `find_frames`. -/
structure FunctionFrames where
  start_rva : Nat
  end_rva : Option Nat
  frames : List Frame
deriving DecidableEq, Inhabited, Repr

/-- The `(probe, current_depth)` comparator of the `find_frames` inline-range
search. -/
def inlineRangeCompare (current_depth probe : Nat) (range : InlineRange) : Ordering :=
  if range.call_depth > current_depth then .gt
  else if range.call_depth < current_depth then .lt
  else if range.start_offset > probe then .gt
  else if range.end_offset ≤ probe then .lt
  else .eq

/-- The non-inlined resolution of an address inside a procedure: the
procedure's formatted name together with the line-table file and line at the
probe. This is the outer frame that `find_frames` seeds its stack with. -/
def procedureFrame (env : Env) (module_index : Nat) (proc : ProcedureSymbolFunction)
    (probe : Nat) : Option Frame :=
  match computeProcedureLines env module_index proc with
  | none => none
  | some lines =>
    let fl := lineSearch env module_index lines probe
    some ⟨env.formatFunction proc.name proc.type_index, fl.1, fl.2⟩

/-- The inline-frame loop of `find_frames`: at growing call depth, search the
remaining sorted ranges for the one containing the probe at that depth, push
its frame, and continue past it; stop at the first depth with no match. The
fuel never runs out for the initial value `length + 1` supplied below. -/
def frameLoop (env : Env) (module_index : Nat) (probe : Nat) :
    Nat → List InlineRange → List Frame → List Frame
  | 0, _, frames => frames
  | fuel + 1, inline_ranges, frames =>
    let current_depth := frames.length - 1
    match rustBinarySearchBy (inlineRangeCompare current_depth probe) inline_ranges with
    | .error _ => frames
    | .ok index =>
      let inline_range := inline_ranges.getD index default
      frameLoop env module_index probe fuel (inline_ranges.drop (index + 1))
        (frames ++ [⟨env.formatId inline_range.inlinee,
          inline_range.file_index.bind (env.fileName module_index),
          inline_range.line_start⟩])

/-- `Context::find_frames`: resolve the probe; a public match yields a single
bare frame, a procedure match yields the outer frame plus the inline stack,
reversed to innermost-first order. The outer `none` models a panic
(`unwrap` on the module info or an address translation inside the walk). -/
def findFrames (ctx : Ctx) (probe : Nat) : Option (Option FunctionFrames) :=
  match lookupFunction ctx probe with
  | none => none
  | some none => some none
  | some (some (.publicSym f)) =>
    match ctx.env.offsetToRva f.start_offset with
    | none => some none
    | some start_rva => some (some ⟨start_rva, none, [⟨some f.name, none, none⟩]⟩)
  | some (some (.procedure module_index proc)) =>
    match ctx.env.offsetToRva proc.offset with
    | none => some none
    | some start_rva =>
      let end_rva := u32 (start_rva + proc.len)
      match ctx.env.moduleInfo module_index with
      | .ok (some m) =>
        match procedureFrame ctx.env module_index proc probe with
        | none => none
        | some frame =>
          match computeProcedureInlineRanges ctx.env m proc with
          | none => none
          | some inline_ranges =>
            let frames := frameLoop ctx.env module_index probe
              (inline_ranges.length + 1) inline_ranges [frame]
            some (some ⟨start_rva, some end_rva, frames.reverse⟩)
      | _ => none

/-- `compute_full_rva_list`: the rvas of all public functions and of all
modules' procedures, sorted and deduplicated. -/
def computeFullRvaList (ctx : Ctx) : List Nat :=
  let publicRvas := ctx.public_functions.filterMap fun f => ctx.env.offsetToRva f.start_offset
  let procRvas := (List.range ctx.env.moduleCount).flatMap fun module_index =>
    match computeModuleProcedures ctx.env module_index with
    | some (.ok procs) => procs.filterMap fun p => ctx.env.offsetToRva p.offset
    | _ => []
  dedupByKey (fun rva => rva) (List.insertionSort (· ≤ ·) (publicRvas ++ procRvas))

/-- The sequence yielded by `functions()` / `FunctionIter::next`: for each rva
of the full list in order, the `find_function` result when it is a match;
addresses whose lookup fails or misses are skipped. -/
def functionsList (ctx : Ctx) : List FunctionValue :=
  (computeFullRvaList ctx).filterMap fun rva =>
    match findFunction ctx rva with
    | some (some f) => some f
    | _ => none

/-- The mutable caches of `ContextPdbData` and `Context` that the lookup path
touches: the `module_contents` arena (`FrozenMap<u16, Box<ModuleInfo>>`) and
the `module_procedures` index cache (`FrozenMap<u16, Vec<_>>`), modelled as
association lists with insert-at-front. -/
structure CtxState where
  module_contents : List (Nat × ModuleStream)
  module_procedures : List (Nat × List ProcedureSymbolFunction)
deriving DecidableEq

/-- `ContextPdbData::get_module_info`: return the cached module contents, or
fetch them from the PDB and cache them; a missing stream is not cached. -/
def getModuleInfoS (env : Env) (module_index : Nat) (s : CtxState) :
    Except Unit (Option ModuleStream) × CtxState :=
  match s.module_contents.lookup module_index with
  | some m => (.ok (some m), s)
  | none =>
    match env.moduleInfo module_index with
    | .error e => (.error e, s)
    | .ok none => (.ok none, s)
    | .ok (some m) =>
      (.ok (some m), { s with module_contents := (module_index, m) :: s.module_contents })

/-- The stateful `compute_module_procedures`: fetch the module info through
the cache and build the procedure index; `none` models the panic on an
out-of-range module index. -/
def computeModuleProceduresS (env : Env) (module_index : Nat) (s : CtxState) :
    Option (Except Unit (List ProcedureSymbolFunction) × CtxState) :=
  if module_index < env.moduleCount then
    match getModuleInfoS env module_index s with
    | (.error e, s1) => some (.error e, s1)
    | (.ok none, s1) => some (.ok [], s1)
    | (.ok (some m), s1) =>
      some (.ok (proceduresFromStream (computePublicFunctions env.globalSymbols) m), s1)
  else none

/-- `Context::get_module_procedures`: return the cached procedure index, or
compute and cache it; a failed computation is propagated and not cached. -/
def getModuleProceduresS (env : Env) (module_index : Nat) (s : CtxState) :
    Option (Except Unit (List ProcedureSymbolFunction) × CtxState) :=
  match s.module_procedures.lookup module_index with
  | some procs => some (.ok procs, s)
  | none =>
    match computeModuleProceduresS env module_index s with
    | none => none
    | some (.error e, s1) => some (.error e, s1)
    | some (.ok procs, s1) =>
      some (.ok procs, { s1 with module_procedures := (module_index, procs) :: s1.module_procedures })

/-- `Context::lookup_function` against the mutable caches: the cascade of the
pure `lookupFunction`, threading the cache state. -/
def lookupFunctionS (ctx : Ctx) (probe : Nat) (s : CtxState) :
    Option (Option PublicOrProcedureSymbol × CtxState) :=
  match ctx.env.rvaToOffset probe with
  | none => some (none, s)
  | some offset =>
    match rustBinarySearchBy (scCompare offset) ctx.section_contributions with
    | .error _ => some (none, s)
    | .ok sc_index =>
      let module_index := (ctx.section_contributions.getD sc_index default).module_index
      match getModuleProceduresS ctx.env module_index s with
      | none => none
      | some (.error _, s1) => some (none, s1)
      | some (.ok module_procedures, s1) =>
        match rustBinarySearchBy (procCompare offset) module_procedures with
        | .ok procedure_index =>
          some (some (.procedure module_index (module_procedures.getD procedure_index default)), s1)
        | .error _ =>
          match bsearchLeIdx
              (fun p => pairCmp p.key (offset.sectionIdx, offset.offset))
              ctx.public_functions with
          | none => some (none, s1)
          | some i =>
            let fun_ := ctx.public_functions.getD i default
            if fun_.start_offset.sectionIdx ≠ offset.sectionIdx then some (none, s1)
            else some (some (.publicSym fun_), s1)

/-- The cache invariant relating the two memoizations: a cached non-empty
procedure index for a module implies that the module's contents are in the
arena (they were fetched and cached while computing the index). -/
def StateInv (s : CtxState) : Prop :=
  ∀ i procs, s.module_procedures.lookup i = some procs → procs ≠ [] →
    ∃ m, s.module_contents.lookup i = some m

/-- Do two section contributions claim intersecting (non-empty) ranges? -/
def scIntersects (a b : ModuleSectionContribution) : Prop :=
  max a.start_offset b.start_offset < min a.end_offset b.end_offset

/-- Comparison of public-index keys: (section, offset) lexicographically. -/
def pubKeyLE (a b : Nat × Nat) : Prop := a.1 < b.1 ∨ (a.1 = b.1 ∧ a.2 ≤ b.2)

instance : DecidableRel pubKeyLE := fun a b => by unfold pubKeyLE; infer_instance

/-- The entry the public fallback is specified to return: the greatest entry
(in index order of the sorted list) whose (section, offset) key is ≤ the
target. -/
def greatestPublicLE (publics : List PublicSymbolFunction) (target : Nat × Nat) :
    Option PublicSymbolFunction :=
  (publics.filter fun p => decide (pubKeyLE p.key target)).getLast?

/-- The run key of a raw contribution record: (section, module). -/
def scKey (sc : DBISectionContribution) : Nat × Nat := (sc.sectionIdx, sc.module)

/-- Maximal runs of consecutive records with equal (section, module) key. -/
def scRuns : List DBISectionContribution → List (List DBISectionContribution)
  | [] => []
  | a :: rest =>
    match scRuns rest with
    | [] => [[a]]
    | run :: runs =>
      match run.head? with
      | none => [[a]]
      | some b => if scKey a = scKey b then (a :: run) :: runs else [a] :: run :: runs

/-- The merged span of one maximal run: section and module of the run, the
start offset of its first record and the end offset of its last. -/
def combineRun (run : List DBISectionContribution) : ModuleSectionContribution :=
  match run with
  | [] => default
  | a :: rest => ⟨a.sectionIdx, a.offset, ((a :: rest).getLastD a).endOffset, a.module⟩

/-- The merged spans produced from a seed span `cur` followed by the given
runs: a first run with the seed's key extends the seed, every other run
becomes its own combined span. -/
def mergeRunsAux (cur : ModuleSectionContribution) :
    List (List DBISectionContribution) → List ModuleSectionContribution
  | [] => [cur]
  | run :: rest =>
    match run.head? with
    | none => [cur]
    | some b =>
      if b.sectionIdx = cur.section_index ∧ b.module = cur.module_index then
        { cur with end_offset := (run.getLastD b).endOffset } :: rest.map combineRun
      else cur :: (run :: rest).map combineRun

/-- Concrete raw records for the C4 witness: two same-key records merged, a
zero-size record dropped, a different-module record starting a new span. -/
def c4raw : List DBISectionContribution :=
  [⟨1, 0, 16, 7⟩, ⟨1, 16, 0, 9⟩, ⟨1, 16, 16, 7⟩, ⟨1, 32, 8, 9⟩]

/-- Concrete raw records for the C3 counterexample: module 1 contributes two
non-adjacent overlapping ranges to section 1, separated by a record of module
2 in section 2; no two different modules intersect anywhere. -/
def c3raw : List DBISectionContribution :=
  [⟨1, 0, 10, 1⟩, ⟨2, 0, 5, 2⟩, ⟨1, 5, 10, 1⟩]

instance (a b : ModuleSectionContribution) : Decidable (scIntersects a b) := by
  unfold scIntersects; infer_instance

deriving instance DecidableEq for Except

/-- Global symbols for the C9 counterexample: two public function symbols at
the exact same offset, in input order "first" then "second". -/
def c9syms : List GlobalSymbolData :=
  [.publicSym true "first" ⟨1, 16⟩, .publicSym true "second" ⟨1, 16⟩]

/-- Rank of an `Ordering` for monotonicity statements: lt < eq < gt. -/
def ordRank : Ordering → Nat
  | .lt => 0
  | .eq => 1
  | .gt => 2

/-- A small environment for the C2 witness: one section contribution
(section 1, range [0, 512), module 0), one public function at (1, 128), and a
module without procedure symbols, so that a probe at rva 256 goes through the
public fallback. -/
def c2env : Env where
  rvaToOffset := fun rva => some ⟨1, rva⟩
  offsetToRva := fun o => some o.offset
  globalSymbols := [.publicSym true "?pub" ⟨1, 128⟩]
  rawSectionContributions := [⟨1, 0, 512, 0⟩]
  moduleCount := 1
  moduleInfo := fun _ => .ok (some ⟨[], []⟩)
  linesAtOffset := fun _ _ => []
  fileName := fun _ _ => none
  formatFunction := fun n _ => some n
  formatId := fun _ => none

/-- Module stream for the inline-walk witnesses: a procedure containing one
inline site (inlinee 100) with a single 8-byte line contribution, which in
turn contains a nested inline site (inlinee 200) whose 16-byte contribution
exceeds the parent's interval set, forcing a gap patch. -/
def c5stream : ModuleStream where
  symbols := [
    ⟨0, .procedure ⟨⟨1, 0⟩, 80, "foo", 0, 100⟩⟩,
    ⟨4, .inlineSite ⟨100, 20, [⟨⟨1, 0⟩, some 8, 7, 4⟩]⟩⟩,
    ⟨8, .inlineSite ⟨200, 16, [⟨⟨1, 0⟩, some 16, 9, 2⟩]⟩⟩,
    ⟨16, .other⟩,
    ⟨20, .other⟩,
    ⟨100, .other⟩]
  inlineeKeys := [100, 200]

/-- Environment for the inline-walk witnesses: the identity address map and
`c5stream` as the only module. -/
def c5env : Env where
  rvaToOffset := fun rva => some ⟨1, rva⟩
  offsetToRva := fun o => some o.offset
  globalSymbols := []
  rawSectionContributions := []
  moduleCount := 1
  moduleInfo := fun _ => .ok (some c5stream)
  linesAtOffset := fun _ _ => []
  fileName := fun _ _ => none
  formatFunction := fun n _ => some n
  formatId := fun _ => none

/-- The procedure entry of `c5stream`'s procedure symbol. -/
def c5proc : ProcedureSymbolFunction := ⟨⟨1, 0⟩, 80, "foo", 0, 100, 0⟩

/-- The inline site of inlinee 100 in `c5stream`. -/
def c5siteA : InlineSiteData := ⟨100, 20, [⟨⟨1, 0⟩, some 8, 7, 4⟩]⟩

/-- Environment for the C1 witness: one contribution owned by module 0,
whose stream is `c5stream`; the line program gives the procedure two
breakpoints, and the formatter names both inlinees. -/
def c1env : Env where
  rvaToOffset := fun rva => some ⟨1, rva⟩
  offsetToRva := fun o => some o.offset
  globalSymbols := []
  rawSectionContributions := [⟨1, 0, 512, 0⟩]
  moduleCount := 1
  moduleInfo := fun _ => .ok (some c5stream)
  linesAtOffset := fun _ o => if o = ⟨1, 0⟩ then [⟨⟨1, 0⟩, 7, 10⟩, ⟨⟨1, 32⟩, 7, 12⟩] else []
  fileName := fun _ fi => if fi = 7 then some "a.c" else if fi = 9 then some "b.c" else none
  formatFunction := fun n _ => some n
  formatId := fun i => if i = 100 then some "inl100" else if i = 200 then some "inl200" else none

/-- The context built from `c1env`. -/
def c1ctx : Ctx := ⟨c1env, [⟨1, 0, 512, 0⟩], []⟩

/-- The expected `find_frames` result at rva 5 in `c1env`: two inline frames
innermost-first, then the outer frame of procedure "foo". -/
def c1ff : FunctionFrames :=
  ⟨0, some 80, [⟨some "inl200", some "b.c", some 2⟩, ⟨some "inl100", some "a.c", some 4⟩,
    ⟨some "foo", some "a.c", some 10⟩]⟩

/-- Environment for the C8 counterexample: one public function symbol whose
address lies in no section contribution, so its lookup misses. -/
def c8env : Env where
  rvaToOffset := fun rva => some ⟨1, rva⟩
  offsetToRva := fun o => some o.offset
  globalSymbols := [.publicSym true "pub1" ⟨1, 16⟩]
  rawSectionContributions := []
  moduleCount := 0
  moduleInfo := fun _ => .ok none
  linesAtOffset := fun _ _ => []
  fileName := fun _ _ => none
  formatFunction := fun n _ => some n
  formatId := fun _ => none

/-- The context built from `c8env`. -/
def c8ctx : Ctx := ⟨c8env, [], [⟨⟨1, 16⟩, "pub1"⟩]⟩

/-- The frame that `find_frames` pushes for one matched inline range: the
formatted inlinee name, the range's file resolved through the module's file
table, and its line. -/
def inlineFrame (env : Env) (module_index : Nat) (r : InlineRange) : Frame :=
  ⟨env.formatId r.inlinee, r.file_index.bind (env.fileName module_index), r.line_start⟩

/- ===================== theorems ===================== -/

theorem mergeSCs_filter (l : List DBISectionContribution) (cur : ModuleSectionContribution) :
    mergeSCs cur l = mergeSCs cur (l.filter fun sc => sc.size ≠ 0) := by
  induction l generalizing cur with
  | nil => rfl
  | cons sc rest ih =>
    by_cases h : sc.size = 0
    · rw [List.filter_cons_of_neg (by simpa using h)]
      simp only [mergeSCs, h, if_true]
      exact ih cur
    · rw [List.filter_cons_of_pos (by simpa using h)]
      simp only [mergeSCs, h, if_false]
      simp only [ih]

theorem mergeSCsTop_filter (raw : List DBISectionContribution) :
    mergeSCsTop raw = mergeSCsTop (raw.filter fun sc => sc.size ≠ 0) := by
  induction raw with
  | nil => rfl
  | cons sc rest ih =>
    by_cases h : sc.size = 0
    · rw [List.filter_cons_of_neg (by simpa using h)]
      simp only [mergeSCsTop, h, if_true]
      exact ih
    · rw [List.filter_cons_of_pos (by simpa using h)]
      simp only [mergeSCsTop, h, if_false]
      exact mergeSCs_filter rest _

theorem mergeSCs_error_iff (l : List DBISectionContribution)
    (a : DBISectionContribution) (cur : ModuleSectionContribution)
    (hkey : cur.section_index = a.sectionIdx) (hmod : cur.module_index = a.module)
    (hend : cur.end_offset = a.endOffset) (h : ∀ sc ∈ l, sc.size ≠ 0) :
    (∃ m s, mergeSCs cur l = .error (.unorderedSectionContributions m s)) ↔
      ¬ (a :: l).Chain' (fun x y => scKey x = scKey y → x.endOffset ≤ y.endOffset) := by
  induction l generalizing a cur with
  | nil =>
    simp [mergeSCs, List.chain'_singleton]
  | cons sc rest ih =>
    have hsize : sc.size ≠ 0 := h sc (by simp)
    have hrest : ∀ x ∈ rest, x.size ≠ 0 := fun x hx => h x (by simp [hx])
    rw [List.chain'_cons]
    simp only [mergeSCs, hsize, if_false]
    by_cases hk : sc.sectionIdx = cur.section_index ∧ sc.module = cur.module_index
    · have hkeyeq : scKey a = scKey sc := by
        simp [scKey, ← hkey, ← hmod, hk.1, hk.2]
      rw [if_pos hk]
      by_cases hdec : sc.endOffset < cur.end_offset
      · rw [if_pos hdec]
        constructor
        · intro _
          intro hchain
          have := hchain.1 hkeyeq
          omega
        · intro _
          exact ⟨sc.module, sc.sectionIdx, rfl⟩
      · rw [if_neg hdec]
        rw [ih sc { cur with end_offset := sc.endOffset } (by simp [hkey, hk.1])
          (by simp [hmod, hk.2]) rfl hrest]
        have hrel : scKey a = scKey sc → a.endOffset ≤ sc.endOffset := by
          intro _
          omega
        constructor
        · intro hnc hand
          exact hnc hand.2
        · intro hnc hcc
          exact hnc ⟨hrel, hcc⟩
    · have hkeyne : scKey a ≠ scKey sc := by
        simp only [scKey, ← hkey, ← hmod]
        intro hc
        rw [Prod.mk.injEq] at hc
        exact hk ⟨hc.1.symm, hc.2.symm⟩
      rw [if_neg hk]
      have := ih sc ⟨sc.sectionIdx, sc.offset, sc.endOffset, sc.module⟩ rfl rfl rfl hrest
      constructor
      · intro hex hand
        rcases hex with ⟨m, s, hm⟩
        rcases hcase : mergeSCs ⟨sc.sectionIdx, sc.offset, sc.endOffset, sc.module⟩ rest with e | t
        · rw [hcase] at hm
          exact (this.mp ⟨m, s, by rw [hcase]; exact congrArg Except.error (Except.error.inj hm)⟩) hand.2
        · rw [hcase] at hm
          exact absurd hm (by simp)
      · intro hnc
        have : ∃ m s, mergeSCs ⟨sc.sectionIdx, sc.offset, sc.endOffset, sc.module⟩ rest
            = .error (.unorderedSectionContributions m s) := by
          apply this.mpr
          intro hcc
          exact hnc ⟨fun hq => absurd hq hkeyne, hcc⟩
        rcases this with ⟨m, s, hm⟩
        exact ⟨m, s, by rw [hm]⟩

theorem mergeSCs_ok_spec (l : List DBISectionContribution) (cur : ModuleSectionContribution)
    (res : List ModuleSectionContribution) (h : ∀ sc ∈ l, sc.size ≠ 0)
    (hok : mergeSCs cur l = .ok res) : res = mergeRunsAux cur (scRuns l) := by
  induction l generalizing cur res with
  | nil =>
    simp only [mergeSCs] at hok
    simp only [scRuns, mergeRunsAux]
    exact (Except.ok.inj hok).symm
  | cons sc rest ih =>
    have hsize : sc.size ≠ 0 := h sc (by simp)
    have hrest : ∀ x ∈ rest, x.size ≠ 0 := fun x hx => h x (by simp [hx])
    simp only [mergeSCs, hsize, if_false] at hok
    by_cases hk : sc.sectionIdx = cur.section_index ∧ sc.module = cur.module_index
    · rw [if_pos hk] at hok
      by_cases hdec : sc.endOffset < cur.end_offset
      · rw [if_pos hdec] at hok
        exact absurd hok (by simp)
      · rw [if_neg hdec] at hok
        have heq := ih { cur with end_offset := sc.endOffset } res hrest hok
        rcases hsr : scRuns rest with _ | ⟨run, runs⟩
        · rw [hsr] at heq
          simp only [scRuns, hsr, mergeRunsAux, List.head?_cons, hk, and_self, if_true,
            List.getLastD_cons, List.getLastD_nil, List.map_nil] at heq ⊢
          exact heq
        · rcases run with _ | ⟨b, run2⟩
          · rw [hsr] at heq
            simp only [scRuns, hsr, mergeRunsAux, List.head?_nil, List.head?_cons, hk,
              and_self, if_true, List.getLastD_cons, List.getLastD_nil, List.map_nil] at heq ⊢
            exact heq
          · rw [hsr] at heq
            by_cases hkb : scKey sc = scKey b
            · have hb : b.sectionIdx = cur.section_index ∧ b.module = cur.module_index := by
                have h1 : b.sectionIdx = sc.sectionIdx ∧ b.module = sc.module := by
                  have h2 := hkb.symm
                  rw [scKey, scKey, Prod.mk.injEq] at h2
                  exact h2
                exact ⟨h1.1.trans hk.1, h1.2.trans hk.2⟩
              simp only [mergeRunsAux, List.head?_cons, hb, and_self, if_true,
                List.getLastD_cons] at heq
              simp only [scRuns, hsr, List.head?_cons, hkb, if_true, mergeRunsAux,
                List.getLastD_cons, hk, and_self]
              exact heq
            · have hb : ¬(b.sectionIdx = cur.section_index ∧ b.module = cur.module_index) := by
                intro hc
                apply hkb
                rw [scKey, scKey, Prod.mk.injEq]
                exact ⟨hk.1.trans hc.1.symm, hk.2.trans hc.2.symm⟩
              simp only [mergeRunsAux, List.head?_cons, hb, if_false, List.map_cons,
                combineRun, List.getLastD_cons] at heq
              simp only [scRuns, hsr, List.head?_cons, hkb, if_false, mergeRunsAux,
                List.getLastD_cons, List.getLastD_nil, hk, and_self, if_true, List.map_cons,
                combineRun]
              exact heq
    · rw [if_neg hk] at hok
      rcases hcase : mergeSCs ⟨sc.sectionIdx, sc.offset, sc.endOffset, sc.module⟩ rest with e | tail
      · rw [hcase] at hok
        exact absurd hok (by simp)
      · rw [hcase] at hok
        have hres : res = cur :: tail := (Except.ok.inj hok).symm
        have htail := ih ⟨sc.sectionIdx, sc.offset, sc.endOffset, sc.module⟩ tail hrest hcase
        subst hres
        rcases hsr : scRuns rest with _ | ⟨run, runs⟩
        · rw [hsr] at htail
          simp only [mergeRunsAux] at htail
          simp only [scRuns, hsr, mergeRunsAux, List.head?_cons, if_neg hk,
            List.map_cons, List.map_nil, combineRun, List.getLastD_cons, List.getLastD_nil]
          rw [htail]
        · rcases run with _ | ⟨b, run2⟩
          · rw [hsr] at htail
            simp only [mergeRunsAux, List.head?_nil] at htail
            simp only [scRuns, hsr, List.head?_nil, mergeRunsAux, List.head?_cons,
              if_neg hk, List.map_cons, List.map_nil, combineRun, List.getLastD_cons,
              List.getLastD_nil]
            rw [htail]
          · rw [hsr] at htail
            by_cases hkb : scKey sc = scKey b
            · have hb : b.sectionIdx = sc.sectionIdx ∧ b.module = sc.module := by
                have h2 := hkb.symm
                rw [scKey, scKey, Prod.mk.injEq] at h2
                exact h2
              simp only [mergeRunsAux, List.head?_cons, hb, and_self, if_true,
                List.getLastD_cons] at htail
              simp only [scRuns, hsr, List.head?_cons, hkb, if_true, mergeRunsAux,
                if_neg hk, List.map_cons, combineRun, List.getLastD_cons]
              rw [htail]
            · have hb : ¬(b.sectionIdx = sc.sectionIdx ∧ b.module = sc.module) := by
                intro hc
                apply hkb
                rw [scKey, scKey, Prod.mk.injEq]
                exact ⟨hc.1.symm, hc.2.symm⟩
              simp only [mergeRunsAux, List.head?_cons, hb, if_false, List.map_cons,
                combineRun, List.getLastD_cons] at htail
              simp only [scRuns, hsr, List.head?_cons, hkb, if_false, mergeRunsAux,
                if_neg hk, List.map_cons, combineRun, List.getLastD_cons, List.getLastD_nil]
              rw [htail]

theorem checkOverlap_not_unordered (l : List ModuleSectionContribution) (m s : Nat) :
    checkOverlap l ≠ .error (.unorderedSectionContributions m s) := by
  induction l with
  | nil => simp [checkOverlap]
  | cons a rest ih =>
    rcases rest with _ | ⟨b, rest2⟩
    · simp [checkOverlap]
    · simp only [checkOverlap]
      split
      · simp
      · exact ih

theorem mergeRunsAux_seed (a : DBISectionContribution) (rest : List DBISectionContribution) :
    mergeRunsAux ⟨a.sectionIdx, a.offset, a.endOffset, a.module⟩ (scRuns rest)
      = (scRuns (a :: rest)).map combineRun := by
  rcases hsr : scRuns rest with _ | ⟨run, runs⟩
  · simp [scRuns, hsr, mergeRunsAux, combineRun]
  · rcases run with _ | ⟨b, run2⟩
    · simp [scRuns, hsr, mergeRunsAux, combineRun]
    · by_cases hkb : scKey a = scKey b
      · have hb : b.sectionIdx = a.sectionIdx ∧ b.module = a.module := by
          have h2 := hkb.symm
          rw [scKey, scKey, Prod.mk.injEq] at h2
          exact h2
        simp only [scRuns, hsr, hkb, if_true, mergeRunsAux, List.head?_cons, hb, and_self,
          List.map_cons, combineRun, List.getLastD_cons]
      · have hb : ¬(b.sectionIdx = a.sectionIdx ∧ b.module = a.module) := by
          intro hc
          apply hkb
          rw [scKey, scKey, Prod.mk.injEq]
          exact ⟨hc.1.symm, hc.2.symm⟩
        simp [scRuns, hsr, hkb, mergeRunsAux, hb, combineRun, List.getLastD_cons]

theorem mergeSCsTop_ok_spec (l : List DBISectionContribution)
    (merged : List ModuleSectionContribution) (h : ∀ sc ∈ l, sc.size ≠ 0)
    (hok : mergeSCsTop l = .ok merged) : merged = (scRuns l).map combineRun := by
  rcases l with _ | ⟨a, rest⟩
  · simp only [mergeSCsTop] at hok
    simp only [scRuns, List.map_nil]
    exact (Except.ok.inj hok).symm
  · have hsize : a.size ≠ 0 := h a (by simp)
    simp only [mergeSCsTop, hsize, if_false] at hok
    rw [mergeSCs_ok_spec rest _ merged (fun x hx => h x (by simp [hx])) hok]
    exact mergeRunsAux_seed a rest

theorem mergeSCsTop_error_iff (l : List DBISectionContribution)
    (h : ∀ sc ∈ l, sc.size ≠ 0) :
    (∃ m s, mergeSCsTop l = .error (.unorderedSectionContributions m s)) ↔
      ¬ l.Chain' (fun x y => scKey x = scKey y → x.endOffset ≤ y.endOffset) := by
  rcases l with _ | ⟨a, rest⟩
  · simp [mergeSCsTop]
  · have hsize : a.size ≠ 0 := h a (by simp)
    simp only [mergeSCsTop, hsize, if_false]
    exact mergeSCs_error_iff rest a ⟨a.sectionIdx, a.offset, a.endOffset, a.module⟩
      rfl rfl rfl (fun x hx => h x (by simp [hx]))

theorem compute_unordered_iff_top (raw : List DBISectionContribution) :
    (∃ m s, computeSectionContributions raw = .error (.unorderedSectionContributions m s)) ↔
      (∃ m s, mergeSCsTop raw = .error (.unorderedSectionContributions m s)) := by
  unfold computeSectionContributions
  rcases htop : mergeSCsTop raw with e | merged
  · simp
  · simp only
    rcases hco : checkOverlap (List.insertionSort mscLE merged) with e' | u
    · simp only
      constructor
      · rintro ⟨m, s, hms⟩
        exact absurd (Except.error.inj hms) (by
          intro hc
          exact checkOverlap_not_unordered _ m s (hc ▸ hco))
      · rintro ⟨m, s, hms⟩
        exact absurd hms (by simp)
    · simp

/-- C4: during the merge of consecutive same-(section, module) contribution
records, zero-size records are dropped (construction is unchanged by
filtering them out), runs of consecutive same-key records are merged into one
span from the first record's start to the last record's end, and construction
aborts with the fatal unordered-contribution error exactly when a record's
end offset decreases relative to the previous record of the same uninterrupted
run (the current combined span's end). -/
theorem c4_contribution_merge (raw : List DBISectionContribution) :
    computeSectionContributions raw
        = computeSectionContributions (raw.filter fun sc => sc.size ≠ 0) ∧
    ((∃ m s, computeSectionContributions raw = .error (.unorderedSectionContributions m s)) ↔
      ¬ (raw.filter fun sc => sc.size ≠ 0).Chain'
          (fun x y => scKey x = scKey y → x.endOffset ≤ y.endOffset)) ∧
    (∀ merged, mergeSCsTop raw = .ok merged →
      merged = (scRuns (raw.filter fun sc => sc.size ≠ 0)).map combineRun) := by
  have hfl : ∀ sc ∈ raw.filter (fun sc => sc.size ≠ 0), sc.size ≠ 0 := by
    intro sc hsc
    have := List.mem_filter.mp hsc
    simpa using this.2
  refine ⟨?_, ?_, ?_⟩
  · unfold computeSectionContributions
    rw [mergeSCsTop_filter]
  · rw [compute_unordered_iff_top, mergeSCsTop_filter]
    exact mergeSCsTop_error_iff _ hfl
  · intro merged hok
    rw [mergeSCsTop_filter] at hok
    exact mergeSCsTop_ok_spec _ merged hfl hok

/-- Witness for C4 at concrete input: a run of two same-(section, module)
records with a zero-size record in between is merged into one span, and a
different-module record starts a new span. -/
theorem c4_contribution_merge_witness :
    mergeSCsTop c4raw = .ok [⟨1, 0, 32, 7⟩, ⟨1, 32, 40, 9⟩] ∧
    [⟨1, 0, 32, 7⟩, ⟨1, 32, 40, 9⟩]
      = (scRuns (c4raw.filter fun sc => sc.size ≠ 0)).map combineRun :=
  ⟨by decide, (c4_contribution_merge c4raw).2.2 _ (by decide)⟩

theorem checkOverlap_ok_iff (l : List ModuleSectionContribution) :
    checkOverlap l = .ok () ↔
      l.Chain' (fun a b => ¬(b.section_index = a.section_index ∧ b.start_offset < a.end_offset)) := by
  induction l with
  | nil => simp [checkOverlap]
  | cons a rest ih =>
    rcases rest with _ | ⟨b, rest2⟩
    · simp [checkOverlap]
    · rw [List.chain'_cons]
      simp only [checkOverlap]
      split
      · rename_i hcond
        constructor
        · intro h
          exact absurd h (by simp)
        · intro h
          exact absurd hcond h.1
      · rename_i hcond
        rw [ih]
        simp [hcond]

theorem mergeSCs_pos (l : List DBISectionContribution) (cur : ModuleSectionContribution)
    (res : List ModuleSectionContribution)
    (hnov : ∀ sc ∈ l, sc.offset + sc.size < 4294967296)
    (hsizes : ∀ sc ∈ l, sc.size ≠ 0)
    (hcur : cur.start_offset < cur.end_offset)
    (hok : mergeSCs cur l = .ok res) :
    ∀ x ∈ res, x.start_offset < x.end_offset := by
  induction l generalizing cur res with
  | nil =>
    simp only [mergeSCs] at hok
    rw [← Except.ok.inj hok]
    simpa using hcur
  | cons sc rest ih =>
    have hsize : sc.size ≠ 0 := hsizes sc (by simp)
    have hnov1 : sc.offset + sc.size < 4294967296 := hnov sc (by simp)
    have hrest1 : ∀ x ∈ rest, x.offset + x.size < 4294967296 := fun x hx => hnov x (by simp [hx])
    have hrest2 : ∀ x ∈ rest, x.size ≠ 0 := fun x hx => hsizes x (by simp [hx])
    have hscpos : sc.offset < sc.endOffset := by
      simp only [DBISectionContribution.endOffset, u32]
      rw [Nat.mod_eq_of_lt hnov1]
      omega
    simp only [mergeSCs, hsize, if_false] at hok
    by_cases hk : sc.sectionIdx = cur.section_index ∧ sc.module = cur.module_index
    · rw [if_pos hk] at hok
      by_cases hdec : sc.endOffset < cur.end_offset
      · rw [if_pos hdec] at hok
        exact absurd hok (by simp)
      · rw [if_neg hdec] at hok
        exact ih _ res hrest1 hrest2 (by simp; omega) hok
    · rw [if_neg hk] at hok
      rcases hcase : mergeSCs ⟨sc.sectionIdx, sc.offset, sc.endOffset, sc.module⟩ rest with e | tail
      · rw [hcase] at hok
        exact absurd hok (by simp)
      · rw [hcase] at hok
        rw [← Except.ok.inj hok]
        intro x hx
        rcases List.mem_cons.mp hx with hx | hx
        · subst hx
          exact hcur
        · exact ih _ tail hrest1 hrest2 hscpos hcase x hx

theorem mergeSCsTop_pos (raw : List DBISectionContribution)
    (merged : List ModuleSectionContribution)
    (hnov : ∀ sc ∈ raw, sc.offset + sc.size < 4294967296)
    (hok : mergeSCsTop raw = .ok merged) :
    ∀ x ∈ merged, x.start_offset < x.end_offset := by
  induction raw with
  | nil =>
    simp only [mergeSCsTop] at hok
    rw [← Except.ok.inj hok]
    simp
  | cons sc rest ih =>
    by_cases h : sc.size = 0
    · simp only [mergeSCsTop, h, if_true] at hok
      exact ih (fun x hx => hnov x (by simp [hx])) hok
    · simp only [mergeSCsTop, h, if_false] at hok
      rw [mergeSCs_filter] at hok
      have hnov1 : sc.offset + sc.size < 4294967296 := hnov sc (by simp)
      apply mergeSCs_pos _ _ merged ?_ ?_ ?_ hok
      · intro x hx
        exact hnov x (by simp [List.mem_filter.mp hx |>.1])
      · intro x hx
        simpa using (List.mem_filter.mp hx).2
      · simp only [DBISectionContribution.endOffset, u32]
        rw [Nat.mod_eq_of_lt hnov1]
        omega

theorem sorted_good_sep (l : List ModuleSectionContribution)
    (hs : l.Sorted mscLE) (hpos : ∀ x ∈ l, x.start_offset < x.end_offset)
    (hchain : l.Chain'
      (fun a b => ¬(b.section_index = a.section_index ∧ b.start_offset < a.end_offset))) :
    ∀ j (hj : j < l.length) i (hi : i < l.length), i < j →
      (l.get ⟨i, hi⟩).section_index = (l.get ⟨j, hj⟩).section_index →
      (l.get ⟨i, hi⟩).end_offset ≤ (l.get ⟨j, hj⟩).start_offset := by
  intro j
  induction j with
  | zero =>
    intro hj i hi hij
    omega
  | succ k ihk =>
    intro hj i hi hij hsec
    have hk : k < l.length := by omega
    have hadj := List.chain'_iff_get.mp hchain k (by omega)
    by_cases hik : i = k
    · subst hik
      by_contra hlt
      exact hadj ⟨hsec.symm, by omega⟩
    · have hik2 : i < k := by omega
      have hsik : mscLE (l.get ⟨i, hi⟩) (l.get ⟨k, hk⟩) :=
        hs.rel_get_of_lt (by simpa using hik2)
      have hskj : mscLE (l.get ⟨k, hk⟩) (l.get ⟨k + 1, hj⟩) :=
        hs.rel_get_of_lt (by simp)
      have hseck : (l.get ⟨i, hi⟩).section_index = (l.get ⟨k, hk⟩).section_index := by
        rcases hsik with h1 | h1 <;> rcases hskj with h2 | h2 <;> omega
      have hik3 := ihk hk i hi hik2 hseck
      have hposk := hpos _ (l.get_mem k hk)
      have hseckj : (l.get ⟨k + 1, hj⟩).section_index = (l.get ⟨k, hk⟩).section_index := by
        omega
      by_contra hlt
      exact hadj ⟨hseckj, by omega⟩

theorem checkOverlap_error_iff_pairs (l : List ModuleSectionContribution)
    (hs : l.Sorted mscLE) (hpos : ∀ x ∈ l, x.start_offset < x.end_offset) :
    (∃ e, checkOverlap l = .error e) ↔
      ∃ i j, ∃ (hi : i < l.length) (hj : j < l.length), i < j ∧
        (l.get ⟨i, hi⟩).section_index = (l.get ⟨j, hj⟩).section_index ∧
        scIntersects (l.get ⟨i, hi⟩) (l.get ⟨j, hj⟩) := by
  have herr : (∃ e, checkOverlap l = .error e) ↔ ¬(checkOverlap l = .ok ()) := by
    rcases hc : checkOverlap l with e | u
    · simp
    · simp
  rw [herr, checkOverlap_ok_iff]
  constructor
  · intro hnc
    rw [List.chain'_iff_get] at hnc
    push_neg at hnc
    rcases hnc with ⟨k, hk, hbad⟩
    have hk1 : k < l.length := by omega
    have hk2 : k + 1 < l.length := by omega
    refine ⟨k, k + 1, hk1, hk2, by omega, hbad.1.symm, ?_⟩
    have hrel : mscLE (l.get ⟨k, hk1⟩) (l.get ⟨k + 1, hk2⟩) :=
      hs.rel_get_of_lt (by simp)
    have hstart : (l.get ⟨k, hk1⟩).start_offset ≤ (l.get ⟨k + 1, hk2⟩).start_offset := by
      rcases hrel with h1 | h1 <;> omega
    have hp1 := hpos _ (l.get_mem k hk1)
    have hp2 := hpos _ (l.get_mem (k + 1) hk2)
    have hb := hbad.2
    simp only [scIntersects]
    omega
  · rintro ⟨i, j, hi, hj, hij, hsec, hint⟩ hchain
    have := sorted_good_sep l hs hpos hchain j hj i hi hij hsec
    simp only [scIntersects] at hint
    omega

/-- C3 (corrected): provided the merge stage succeeds and the raw offsets do
not overflow `u32`, construction aborts with the fatal
overlapping-contribution error exactly when two entries of the sorted merged
span list claim intersecting ranges in the same section — whether or not the
two spans belong to different modules. -/
theorem c3_overlap_error_iff (raw : List DBISectionContribution)
    (hnov : ∀ sc ∈ raw, sc.offset + sc.size < 4294967296)
    (merged : List ModuleSectionContribution)
    (hmerge : mergeSCsTop raw = .ok merged) :
    (∃ s m1 m2, computeSectionContributions raw
        = .error (.overlappingSectionContributions s m1 m2)) ↔
      ∃ i j, ∃ (hi : i < (List.insertionSort mscLE merged).length)
        (hj : j < (List.insertionSort mscLE merged).length), i < j ∧
        ((List.insertionSort mscLE merged).get ⟨i, hi⟩).section_index
          = ((List.insertionSort mscLE merged).get ⟨j, hj⟩).section_index ∧
        scIntersects ((List.insertionSort mscLE merged).get ⟨i, hi⟩)
          ((List.insertionSort mscLE merged).get ⟨j, hj⟩) := by
  have hsorted : (List.insertionSort mscLE merged).Sorted mscLE :=
    List.sorted_insertionSort mscLE merged
  have hpos : ∀ x ∈ List.insertionSort mscLE merged, x.start_offset < x.end_offset := by
    intro x hx
    exact mergeSCsTop_pos raw merged hnov hmerge x ((List.mem_insertionSort mscLE).mp hx)
  unfold computeSectionContributions
  rw [hmerge]
  simp only
  rcases hco : checkOverlap (List.insertionSort mscLE merged) with e | u
  · constructor
    · intro _
      exact (checkOverlap_error_iff_pairs _ hsorted hpos).mp ⟨e, hco⟩
    · intro _
      rcases e with ⟨m, s⟩ | ⟨s, m1, m2⟩
      · exact absurd hco (checkOverlap_not_unordered _ m s)
      · exact ⟨s, m1, m2, rfl⟩
  · constructor
    · rintro ⟨s, m1, m2, h⟩
      exact absurd h (by simp)
    · intro hpair
      rcases (checkOverlap_error_iff_pairs _ hsorted hpos).mpr hpair with ⟨e, he⟩
      rw [hco] at he
      exact absurd he (by simp)

/-- C3 counterexample: on `c3raw`, the only intersecting merged spans belong
to the same module (module 1), no two spans of different modules intersect in
any section, and construction nevertheless aborts with the overlapping error
(reporting module 1 against itself). -/
theorem c3_counterexample :
    computeSectionContributions c3raw = .error (.overlappingSectionContributions 1 1 1) ∧
    mergeSCsTop c3raw = .ok [⟨1, 0, 10, 1⟩, ⟨2, 0, 5, 2⟩, ⟨1, 5, 15, 1⟩] ∧
    (∀ x ∈ [(⟨1, 0, 10, 1⟩ : ModuleSectionContribution), ⟨2, 0, 5, 2⟩, ⟨1, 5, 15, 1⟩],
      ∀ y ∈ [(⟨1, 0, 10, 1⟩ : ModuleSectionContribution), ⟨2, 0, 5, 2⟩, ⟨1, 5, 15, 1⟩],
      x.module_index ≠ y.module_index →
        ¬(x.section_index = y.section_index ∧ scIntersects x y)) :=
  ⟨by decide, by decide, by decide⟩

/-- Witness for C3's amended theorem: both hypotheses hold of `c3raw` and the
equivalence applies, producing the overlap error from the same-module
intersecting pair. -/
theorem c3_overlap_error_iff_witness :
    ∃ s m1 m2, computeSectionContributions c3raw
      = .error (.overlappingSectionContributions s m1 m2) :=
  (c3_overlap_error_iff c3raw (by decide)
    [⟨1, 0, 10, 1⟩, ⟨2, 0, 5, 2⟩, ⟨1, 5, 15, 1⟩] (by decide)).mpr
    ⟨0, 1, by decide, by decide, by decide, by decide, by decide⟩

theorem dedupByKeyGo_sublist [DecidableEq β] (key : α → β) (l : List α) :
    ∀ prev, (dedupByKeyGo key prev l).Sublist l := by
  induction l with
  | nil => intro prev; simp [dedupByKeyGo]
  | cons a rest ih =>
    intro prev
    simp only [dedupByKeyGo]
    split
    · exact (ih prev).cons a
    · exact (ih a).cons₂ a

theorem dedupByKey_sublist [DecidableEq β] (key : α → β) (l : List α) :
    (dedupByKey key l).Sublist l := by
  rcases l with _ | ⟨a, rest⟩
  · simp [dedupByKey]
  · exact (dedupByKeyGo_sublist key rest a).cons₂ a

theorem dedupByKeyGo_key_cover [DecidableEq β] (key : α → β) (l : List α) :
    ∀ prev x, x ∈ l → key x = key prev ∨ ∃ y ∈ dedupByKeyGo key prev l, key y = key x := by
  induction l with
  | nil => intro prev x hx; simp at hx
  | cons a rest ih =>
    intro prev x hx
    simp only [dedupByKeyGo]
    rcases List.mem_cons.mp hx with hx | hx
    · subst hx
      by_cases h : key x = key prev
      · rw [if_pos h]
        exact Or.inl h
      · rw [if_neg h]
        exact Or.inr ⟨x, by simp⟩
    · by_cases h : key a = key prev
      · rw [if_pos h]
        exact ih prev x hx
      · rw [if_neg h]
        rcases ih a x hx with hk | ⟨y, hy, hk⟩
        · exact Or.inr ⟨a, by simp, hk.symm⟩
        · exact Or.inr ⟨y, by simp [hy], hk⟩

theorem dedupByKey_key_cover [DecidableEq β] (key : α → β) (l : List α) :
    ∀ x ∈ l, ∃ y ∈ dedupByKey key l, key y = key x := by
  rcases l with _ | ⟨a, rest⟩
  · intro x hx; simp at hx
  · intro x hx
    rcases List.mem_cons.mp hx with hx | hx
    · exact ⟨a, by simp [dedupByKey], hx ▸ rfl⟩
    · rcases dedupByKeyGo_key_cover key rest a x hx with hk | ⟨y, hy, hk⟩
      · exact ⟨a, by simp [dedupByKey], hk.symm⟩
      · exact ⟨y, by simp [dedupByKey, hy], hk⟩

theorem dedupByKeyGo_sorted [DecidableEq β] (key : α → β) (le : α → α → Prop)
    (hanti : ∀ a b, le a b → le b a → key a = key b)
    (hsubst : ∀ a b c, key a = key b → le a c → le b c)
    (l : List α) :
    ∀ prev, (prev :: l).Sorted le →
      (prev :: dedupByKeyGo key prev l).Sorted (fun a b => le a b ∧ key a ≠ key b) := by
  induction l with
  | nil =>
    intro prev _
    simp [dedupByKeyGo]
  | cons a rest ih =>
    intro prev hs
    have hpa : le prev a := (List.sorted_cons.mp hs).1 a (by simp)
    have hprest : (prev :: rest).Sorted le := by
      rw [List.sorted_cons]
      refine ⟨fun b hb => (List.sorted_cons.mp hs).1 b (by simp [hb]), ?_⟩
      exact ((List.sorted_cons.mp hs).2).tail
    have harest : (a :: rest).Sorted le := (List.sorted_cons.mp hs).2
    simp only [dedupByKeyGo]
    by_cases h : key a = key prev
    · rw [if_pos h]
      exact ih prev hprest
    · rw [if_neg h]
      have hrec := ih a harest
      rw [List.sorted_cons]
      refine ⟨?_, hrec⟩
      intro b hb
      rcases List.mem_cons.mp hb with hb | hb
      · subst hb
        exact ⟨hpa, fun hk => h (hk.symm)⟩
      · have hbrest : b ∈ rest := (dedupByKeyGo_sublist key rest a).subset hb
        have hpb : le prev b := (List.sorted_cons.mp hs).1 b (by simp [hbrest])
        refine ⟨hpb, ?_⟩
        intro hk
        have hxb : le b a := hsubst prev b a hk hpa
        have hab : le a b := (List.sorted_cons.mp harest).1 b hbrest
        exact h ((hanti a b hab hxb).trans hk.symm)

theorem dedupByKey_sorted [DecidableEq β] (key : α → β) (le : α → α → Prop)
    (hanti : ∀ a b, le a b → le b a → key a = key b)
    (hsubst : ∀ a b c, key a = key b → le a c → le b c)
    (l : List α) (hs : l.Sorted le) :
    (dedupByKey key l).Sorted (fun a b => le a b ∧ key a ≠ key b) := by
  rcases l with _ | ⟨a, rest⟩
  · simp [dedupByKey]
  · exact dedupByKeyGo_sorted key le hanti hsubst rest a hs

theorem computePublicFunctions_sorted_strict (syms : List GlobalSymbolData) :
    (computePublicFunctions syms).Sorted
      (fun p q => pubLE p q ∧ p.start_offset ≠ q.start_offset) := by
  have hanti : ∀ a b : PublicSymbolFunction, pubLE a b → pubLE b a →
      a.start_offset = b.start_offset := by
    intro a b h1 h2
    rcases a with ⟨⟨s1, o1⟩, n1⟩
    rcases b with ⟨⟨s2, o2⟩, n2⟩
    simp only [pubLE, PublicSymbolFunction.key] at h1 h2
    simp only [PdbOffset.mk.injEq]
    omega
  have hsubst : ∀ a b c : PublicSymbolFunction, a.start_offset = b.start_offset →
      pubLE a c → pubLE b c := by
    intro a b c h1 h2
    simp only [pubLE, PublicSymbolFunction.key, h1] at h2 ⊢
    exact h2
  exact dedupByKey_sorted _ pubLE hanti hsubst _
    (List.sorted_insertionSort pubLE (collectPublicFunctions syms))

/-- C9 (corrected): the public function index is ordered strictly by the
(section, offset) key, every retained entry is one of the collected public
function symbols, and each collected start offset is represented by exactly
one retained entry. Which of several exact-offset duplicates survives is not
"last wins": under the stable-sort model of `sort_unstable_by_key` the first
duplicate in input order is kept. -/
theorem c9_public_index (syms : List GlobalSymbolData) :
    (computePublicFunctions syms).Sorted
      (fun p q => pubLE p q ∧ p.start_offset ≠ q.start_offset) ∧
    (∀ p ∈ computePublicFunctions syms, p ∈ collectPublicFunctions syms) ∧
    (∀ p ∈ collectPublicFunctions syms, ∃ q ∈ computePublicFunctions syms,
      q.start_offset = p.start_offset) := by
  refine ⟨?_, ?_, ?_⟩
  · exact computePublicFunctions_sorted_strict syms
  · intro p hp
    have := (dedupByKey_sublist (fun p => p.start_offset)
      (List.insertionSort pubLE (collectPublicFunctions syms))).subset hp
    exact (List.mem_insertionSort pubLE).mp this
  · intro p hp
    have hp2 : p ∈ List.insertionSort pubLE (collectPublicFunctions syms) :=
      (List.mem_insertionSort pubLE).mpr hp
    exact dedupByKey_key_cover _ _ p hp2

/-- C9 counterexample: of two public function symbols at the exact same
offset, the retained entry is the first in input order, not the last — the
"last wins" rule of the claim does not hold (under any fixed tie order; the
Rust unstable sort does not even fix one). -/
theorem c9_counterexample :
    computePublicFunctions c9syms = [⟨⟨1, 16⟩, "first"⟩] := by decide

theorem natCmp_lt_iff (a b : Nat) : natCmp a b = .lt ↔ a < b := by
  unfold natCmp
  split
  · simp; omega
  · split <;> simp <;> omega

theorem natCmp_eq_iff (a b : Nat) : natCmp a b = .eq ↔ a = b := by
  unfold natCmp
  split
  · simp; omega
  · split <;> simp <;> omega

theorem natCmp_gt_iff (a b : Nat) : natCmp a b = .gt ↔ a > b := by
  unfold natCmp
  split
  · simp; omega
  · split <;> simp <;> omega

theorem pairCmp_lt_iff (a b : Nat × Nat) :
    pairCmp a b = .lt ↔ (a.1 < b.1 ∨ (a.1 = b.1 ∧ a.2 < b.2)) := by
  unfold pairCmp
  rcases h1 : natCmp a.1 b.1 with _ | _ | _
  · rw [natCmp_lt_iff] at h1
    simp [Ordering.then, h1]
  · rw [natCmp_eq_iff] at h1
    simp only [Ordering.then, natCmp_lt_iff]
    omega
  · rw [natCmp_gt_iff] at h1
    simp only [Ordering.then]
    constructor
    · intro h2
      exact absurd h2 (by simp)
    · intro h2
      omega

theorem pairCmp_eq_iff (a b : Nat × Nat) : pairCmp a b = .eq ↔ a = b := by
  unfold pairCmp
  rcases h1 : natCmp a.1 b.1 with _ | _ | _
  · rw [natCmp_lt_iff] at h1
    simp only [Ordering.then]
    constructor
    · intro h2
      exact absurd h2 (by simp)
    · intro h2
      rw [Prod.ext_iff] at h2
      omega
  · rw [natCmp_eq_iff] at h1
    simp only [Ordering.then, natCmp_eq_iff, Prod.ext_iff]
    omega
  · rw [natCmp_gt_iff] at h1
    simp only [Ordering.then]
    constructor
    · intro h2
      exact absurd h2 (by simp)
    · intro h2
      rw [Prod.ext_iff] at h2
      omega

theorem pairCmp_gt_iff (a b : Nat × Nat) :
    pairCmp a b = .gt ↔ (a.1 > b.1 ∨ (a.1 = b.1 ∧ a.2 > b.2)) := by
  unfold pairCmp
  rcases h1 : natCmp a.1 b.1 with _ | _ | _
  · rw [natCmp_lt_iff] at h1
    simp only [Ordering.then]
    constructor
    · intro h2
      exact absurd h2 (by simp)
    · intro h2
      omega
  · rw [natCmp_eq_iff] at h1
    simp only [Ordering.then, natCmp_gt_iff]
    omega
  · rw [natCmp_gt_iff] at h1
    simp [Ordering.then, h1]

theorem rustBinarySearchGo_ok [Inhabited α] (f : α → Ordering) (xs : List α) :
    ∀ fuel left right i, right ≤ xs.length →
      rustBinarySearchGo f xs fuel left right = .ok i →
      i < xs.length ∧ f (xs.getD i default) = .eq := by
  intro fuel
  induction fuel with
  | zero =>
    intro left right i _ h
    exact absurd h (by simp [rustBinarySearchGo])
  | succ fuel ih =>
    intro left right i hlen h
    simp only [rustBinarySearchGo] at h
    by_cases hlr : left < right
    · rw [if_pos hlr] at h
      rcases hf : f (xs.getD (left + (right - left) / 2) default) with _ | _ | _ <;>
        rw [hf] at h
      · exact ih _ _ _ hlen h
      · have hmid : left + (right - left) / 2 < right := by omega
        have h2 : (Except.ok (left + (right - left) / 2) : Except Nat Nat) = .ok i := h
        have hi : left + (right - left) / 2 = i := Except.ok.inj h2
        subst hi
        exact ⟨by omega, hf⟩
      · exact ih _ _ _ (by omega) h
    · rw [if_neg hlr] at h
      exact absurd h (by simp)

theorem rustBinarySearchBy_ok [Inhabited α] (f : α → Ordering) (xs : List α) (i : Nat)
    (h : rustBinarySearchBy f xs = .ok i) :
    i < xs.length ∧ f (xs.getD i default) = .eq :=
  rustBinarySearchGo_ok f xs xs.length 0 xs.length i (Nat.le_refl _) h

theorem rustBinarySearchBy_error_of_no_eq [Inhabited α] (f : α → Ordering) (xs : List α)
    (h : ∀ x ∈ xs, f x ≠ .eq) : ∃ e, rustBinarySearchBy f xs = .error e := by
  rcases hr : rustBinarySearchBy f xs with e | i
  · exact ⟨e, rfl⟩
  · have h2 := rustBinarySearchBy_ok f xs i hr
    rw [List.getD_eq_getElem _ _ h2.1] at h2
    exact absurd h2.2 (h _ (List.getElem_mem h2.1))

theorem rustBinarySearchGo_error [Inhabited α] (f : α → Ordering) (xs : List α)
    (hmono : ∀ i j (hi : i < xs.length) (hj : j < xs.length), i ≤ j →
      ordRank (f (xs.get ⟨i, hi⟩)) ≤ ordRank (f (xs.get ⟨j, hj⟩))) :
    ∀ fuel left right e, right - left ≤ fuel → left ≤ right → right ≤ xs.length →
      (∀ j (hj : j < xs.length), j < left → f (xs.get ⟨j, hj⟩) = .lt) →
      (∀ j (hj : j < xs.length), right ≤ j → f (xs.get ⟨j, hj⟩) = .gt) →
      rustBinarySearchGo f xs fuel left right = .error e →
      left ≤ e ∧ e ≤ right ∧
        (∀ j (hj : j < xs.length), j < e → f (xs.get ⟨j, hj⟩) = .lt) ∧
        (∀ j (hj : j < xs.length), e ≤ j → f (xs.get ⟨j, hj⟩) = .gt) := by
  intro fuel
  induction fuel with
  | zero =>
    intro left right e hfuel hlr hlen hleft hright h
    have h2 : (Except.error left : Except Nat Nat) = .error e := h
    have he : left = e := Except.error.inj h2
    subst he
    have hlr2 : left = right := by omega
    subst hlr2
    exact ⟨Nat.le_refl _, Nat.le_refl _, hleft, hright⟩
  | succ fuel ih =>
    intro left right e hfuel hlr hlen hleft hright h
    simp only [rustBinarySearchGo] at h
    by_cases hlr2 : left < right
    · rw [if_pos hlr2] at h
      have hmid : left + (right - left) / 2 < right := by omega
      have hmidlen : left + (right - left) / 2 < xs.length := by omega
      rcases hf : f (xs.getD (left + (right - left) / 2) default) with _ | _ | _ <;>
        rw [hf] at h
      · have h3 : rustBinarySearchGo f xs fuel (left + (right - left) / 2 + 1) right
            = .error e := h
        rw [List.getD_eq_getElem _ _ hmidlen] at hf
        have hleft2 : ∀ j (hj : j < xs.length), j < left + (right - left) / 2 + 1 →
            f (xs.get ⟨j, hj⟩) = .lt := by
          intro j hj hjm
          have hr := hmono j (left + (right - left) / 2) hj hmidlen (by omega)
          have hx : f (xs.get ⟨left + (right - left) / 2, hmidlen⟩) = .lt := hf
          rw [hx] at hr
          rcases hfj : f (xs.get ⟨j, hj⟩) with _ | _ | _
          · rfl
          · rw [hfj] at hr
            simp [ordRank] at hr
          · rw [hfj] at hr
            simp [ordRank] at hr
        have hres := ih (left + (right - left) / 2 + 1) right e (by omega) (by omega) hlen
          hleft2 hright h3
        exact ⟨by omega, hres.2.1, hres.2.2⟩
      · have h2 : (Except.ok (left + (right - left) / 2) : Except Nat Nat) = .error e := h
        exact absurd h2 (by simp)
      · have h3 : rustBinarySearchGo f xs fuel left (left + (right - left) / 2)
            = .error e := h
        rw [List.getD_eq_getElem _ _ hmidlen] at hf
        have hright2 : ∀ j (hj : j < xs.length), left + (right - left) / 2 ≤ j →
            f (xs.get ⟨j, hj⟩) = .gt := by
          intro j hj hjm
          have hr := hmono (left + (right - left) / 2) j hmidlen hj (by omega)
          have hx : f (xs.get ⟨left + (right - left) / 2, hmidlen⟩) = .gt := hf
          rw [hx] at hr
          rcases hfj : f (xs.get ⟨j, hj⟩) with _ | _ | _
          · rw [hfj] at hr
            simp [ordRank] at hr
          · rw [hfj] at hr
            simp [ordRank] at hr
          · rfl
        have hres := ih left (left + (right - left) / 2) e (by omega) (by omega) (by omega)
          hleft hright2 h3
        exact ⟨hres.1, by omega, hres.2.2⟩
    · rw [if_neg hlr2] at h
      have h2 : (Except.error left : Except Nat Nat) = .error e := h
      have he : left = e := Except.error.inj h2
      subst he
      have hlr3 : left = right := by omega
      subst hlr3
      exact ⟨Nat.le_refl _, Nat.le_refl _, hleft, hright⟩

theorem rustBinarySearchBy_error [Inhabited α] (f : α → Ordering) (xs : List α)
    (hmono : ∀ i j (hi : i < xs.length) (hj : j < xs.length), i ≤ j →
      ordRank (f (xs.get ⟨i, hi⟩)) ≤ ordRank (f (xs.get ⟨j, hj⟩)))
    (e : Nat) (h : rustBinarySearchBy f xs = .error e) :
    e ≤ xs.length ∧
      (∀ j (hj : j < xs.length), j < e → f (xs.get ⟨j, hj⟩) = .lt) ∧
      (∀ j (hj : j < xs.length), e ≤ j → f (xs.get ⟨j, hj⟩) = .gt) := by
  have h2 := rustBinarySearchGo_error f xs hmono xs.length 0 xs.length e (by omega) (by omega)
    (by omega) (by omega) (by omega) h
  exact ⟨h2.2.1, h2.2.2⟩

theorem filter_eq_take (l : List α) (p : α → Bool) :
    ∀ m, m ≤ l.length →
      (∀ j (hj : j < l.length), j < m → p (l.get ⟨j, hj⟩) = true) →
      (∀ j (hj : j < l.length), m ≤ j → p (l.get ⟨j, hj⟩) = false) →
      l.filter p = l.take m := by
  induction l with
  | nil =>
    intro m _ _ _
    simp
  | cons a rest ih =>
    intro m hm hlt hge
    rcases m with _ | m2
    · rw [List.take_zero, List.filter_eq_nil_iff]
      intro x hx
      rcases List.mem_iff_get.mp hx with ⟨⟨j, hj⟩, hget⟩
      rw [← hget]
      simp only [List.get_eq_getElem] at hge ⊢
      simp [hge j hj (by omega)]
    · have hpa : p a = true := hlt 0 (by simp) (by omega)
      rw [List.filter_cons_of_pos hpa, List.take_succ_cons]
      congr 1
      refine ih m2 (by simpa using hm) ?_ ?_
      · intro j hj hjm
        have := hlt (j + 1) (by simpa using Nat.succ_lt_succ hj) (by omega)
        simpa using this
      · intro j hj hjm
        have := hge (j + 1) (by simpa using Nat.succ_lt_succ hj) (by omega)
        simpa using this

theorem take_getLast? (l : List α) (m : Nat) (hm : m ≤ l.length) (hm0 : m ≠ 0)
    (hmlen : m - 1 < l.length) :
    (l.take m).getLast? = some (l.get ⟨m - 1, hmlen⟩) := by
  rw [List.getLast?_eq_getElem?]
  have hlen : (l.take m).length = m := by
    simp
    omega
  rw [hlen]
  rw [List.getElem?_take_of_lt (by omega)]
  rw [List.getElem?_eq_getElem hmlen]
  simp

theorem pairCmp_rank_mono (k1 k2 t : Nat × Nat)
    (hlt : k1.1 < k2.1 ∨ (k1.1 = k2.1 ∧ k1.2 < k2.2)) :
    ordRank (pairCmp k1 t) ≤ ordRank (pairCmp k2 t) := by
  rcases h1 : pairCmp k1 t with _ | _ | _ <;> rcases h2 : pairCmp k2 t with _ | _ | _ <;>
    simp only [ordRank] <;> try omega
  · rw [pairCmp_eq_iff, Prod.ext_iff] at h1
    rw [pairCmp_lt_iff] at h2
    omega
  · rw [pairCmp_gt_iff] at h1
    rw [pairCmp_lt_iff] at h2
    omega
  · rw [pairCmp_gt_iff] at h1
    rw [pairCmp_eq_iff, Prod.ext_iff] at h2
    omega

theorem bsearchLeIdx_greatest (publics : List PublicSymbolFunction) (target : Nat × Nat)
    (hs : publics.Sorted (fun p q => pubLE p q ∧ p.start_offset ≠ q.start_offset)) :
    (bsearchLeIdx (fun p => pairCmp p.key target) publics).map
      (fun i => publics.getD i default) = greatestPublicLE publics target := by
  have hkeys : ∀ (i j : Fin publics.length), i < j →
      ((publics.get i).key.1 < (publics.get j).key.1 ∨
        ((publics.get i).key.1 = (publics.get j).key.1 ∧
          (publics.get i).key.2 < (publics.get j).key.2)) := by
    intro i j hij
    have hrel := List.pairwise_iff_get.mp hs i j hij
    rcases hrel with ⟨hle, hne⟩
    have hkne : (publics.get i).key ≠ (publics.get j).key := by
      intro hk
      apply hne
      rcases hip : publics.get i with ⟨⟨s1, o1⟩, n1⟩
      rcases hjp : publics.get j with ⟨⟨s2, o2⟩, n2⟩
      rw [hip, hjp] at hk
      simp only [PublicSymbolFunction.key, Prod.mk.injEq] at hk
      simp [hk.1, hk.2]
    simp only [pubLE] at hle
    have hkne2 : ¬((publics.get i).key.1 = (publics.get j).key.1 ∧
        (publics.get i).key.2 = (publics.get j).key.2) := by
      intro hc
      exact hkne (Prod.ext hc.1 hc.2)
    by_cases h1 : (publics.get i).key.1 = (publics.get j).key.1
    · right
      refine ⟨h1, ?_⟩
      rcases hle with hle | hle <;> omega
    · left
      rcases hle with hle | hle <;> omega
  have hmono : ∀ i j (hi : i < publics.length) (hj : j < publics.length), i ≤ j →
      ordRank ((fun p => pairCmp p.key target) (publics.get ⟨i, hi⟩)) ≤
        ordRank ((fun p => pairCmp p.key target) (publics.get ⟨j, hj⟩)) := by
    intro i j hi hj hij
    rcases Nat.eq_or_lt_of_le hij with hij | hij
    · subst hij
      exact Nat.le_refl _
    · exact pairCmp_rank_mono _ _ _ (hkeys ⟨i, hi⟩ ⟨j, hj⟩ hij)
  unfold bsearchLeIdx greatestPublicLE
  rcases hr : rustBinarySearchBy (fun p => pairCmp p.key target) publics with e | i
  · have hfacts := rustBinarySearchBy_error _ publics hmono e hr
    rcases e with _ | e2
    · rw [hr]
      show (none : Option PublicSymbolFunction)
        = (publics.filter fun p => decide (pubKeyLE p.key target)).getLast?
      have hfilter : publics.filter (fun p => decide (pubKeyLE p.key target)) = publics.take 0 := by
        refine filter_eq_take publics _ 0 (by omega) (by omega) ?_
        intro j hj _
        have hgt := hfacts.2.2 j hj (by omega)
        rw [pairCmp_gt_iff] at hgt
        simp only [decide_eq_false_iff_not, pubKeyLE]
        omega
      rw [hfilter]
      simp
    · rw [hr]
      show (some (publics.getD e2 default) : Option PublicSymbolFunction)
        = (publics.filter fun p => decide (pubKeyLE p.key target)).getLast?
      have he2 : e2 < publics.length := by omega
      have hfilter : publics.filter (fun p => decide (pubKeyLE p.key target))
          = publics.take (e2 + 1) := by
        refine filter_eq_take publics _ (e2 + 1) (by omega) ?_ ?_
        · intro j hj hjm
          have hlt := hfacts.2.1 j hj (by omega)
          rw [pairCmp_lt_iff] at hlt
          simp only [decide_eq_true_eq, pubKeyLE]
          omega
        · intro j hj hjm
          have hgt := hfacts.2.2 j hj (by omega)
          rw [pairCmp_gt_iff] at hgt
          simp only [decide_eq_false_iff_not, pubKeyLE]
          omega
      rw [hfilter]
      rw [take_getLast? publics (e2 + 1) (by omega) (by omega) (by simpa using he2)]
      simp only [Nat.add_sub_cancel]
      rw [List.getD_eq_getElem _ _ he2]
      simp
  · have hfacts := rustBinarySearchBy_ok _ publics i hr
    have hi : i < publics.length := hfacts.1
    have hkey : (publics.get ⟨i, hi⟩).key = target := by
      have h2 := hfacts.2
      rw [List.getD_eq_getElem _ _ hi] at h2
      rw [pairCmp_eq_iff] at h2
      exact h2
    rw [hr]
    show (some (publics.getD i default) : Option PublicSymbolFunction)
      = (publics.filter fun p => decide (pubKeyLE p.key target)).getLast?
    have hfilter : publics.filter (fun p => decide (pubKeyLE p.key target))
        = publics.take (i + 1) := by
      refine filter_eq_take publics _ (i + 1) (by omega) ?_ ?_
      · intro j hj hjm
        simp only [decide_eq_true_eq, pubKeyLE]
        rcases Nat.lt_or_ge j i with hji | hji
        · have := hkeys ⟨j, hj⟩ ⟨i, hi⟩ hji
          rw [hkey] at this
          omega
        · have hji2 : j = i := by omega
          subst hji2
          rw [show (⟨j, hj⟩ : Fin publics.length) = ⟨j, hi⟩ from rfl, hkey]
          omega
      · intro j hj hjm
        have := hkeys ⟨i, hi⟩ ⟨j, hj⟩ (show i < j by omega)
        rw [hkey] at this
        simp only [decide_eq_false_iff_not, pubKeyLE]
        omega
    rw [hfilter]
    rw [take_getLast? publics (i + 1) (by omega) (by omega) (by simpa using hi)]
    simp only [Nat.add_sub_cancel]
    rw [List.getD_eq_getElem _ _ hi]
    simp

theorem scCompare_eq_iff (offset : PdbOffset) (sc : ModuleSectionContribution) :
    scCompare offset sc = .eq ↔
      (sc.section_index = offset.sectionIdx ∧ sc.start_offset ≤ offset.offset ∧
        offset.offset < sc.end_offset) := by
  unfold scCompare
  split_ifs <;> simp <;> omega

theorem procCompare_eq_iff (offset : PdbOffset) (p : ProcedureSymbolFunction) :
    procCompare offset p = .eq ↔
      (p.offset.sectionIdx = offset.sectionIdx ∧ p.offset.offset ≤ offset.offset ∧
        offset.offset < u32 (p.offset.offset + p.len)) := by
  unfold procCompare
  split_ifs <;> simp <;> omega

theorem newFromParts_parts (env : Env) (ctx : Ctx) (hctx : newFromParts env = .ok ctx) :
    ctx.env = env ∧ ctx.public_functions = computePublicFunctions env.globalSymbols ∧
      computeSectionContributions env.rawSectionContributions = .ok ctx.section_contributions := by
  unfold newFromParts at hctx
  rcases hcs : computeSectionContributions env.rawSectionContributions with e | scs
  · rw [hcs] at hctx
    exact absurd hctx (by simp)
  · rw [hcs] at hctx
    have h2 := Except.ok.inj hctx
    rw [← h2]
    exact ⟨rfl, rfl, rfl⟩

/-- C2: the lookup cascade. (1) An untranslatable address is not found.
(2) An address whose internal offset lies in no section contribution is not
found. (3) When the contribution search hits but no procedure of the owning
module contains the offset, the fallback returns the greatest public entry
with key (section, offset) ≤ the target as an open-ended match, and not-found
when that entry lies in a different section or no such entry exists. -/
theorem c2_lookup_cascade (env : Env) (ctx : Ctx) (hctx : newFromParts env = .ok ctx)
    (probe : Nat) :
    (env.rvaToOffset probe = none → lookupFunction ctx probe = some none) ∧
    (∀ offset, env.rvaToOffset probe = some offset →
      (∀ sc ∈ ctx.section_contributions,
        ¬(sc.section_index = offset.sectionIdx ∧ sc.start_offset ≤ offset.offset ∧
          offset.offset < sc.end_offset)) →
      lookupFunction ctx probe = some none) ∧
    (∀ offset sc_index module_procedures, env.rvaToOffset probe = some offset →
      rustBinarySearchBy (scCompare offset) ctx.section_contributions = .ok sc_index →
      computeModuleProcedures env
        ((ctx.section_contributions.getD sc_index default).module_index)
        = some (.ok module_procedures) →
      (∀ p ∈ module_procedures,
        ¬(p.offset.sectionIdx = offset.sectionIdx ∧ p.offset.offset ≤ offset.offset ∧
          offset.offset < u32 (p.offset.offset + p.len))) →
      lookupFunction ctx probe
        = some (match greatestPublicLE ctx.public_functions
              (offset.sectionIdx, offset.offset) with
            | none => none
            | some ge => if ge.start_offset.sectionIdx = offset.sectionIdx
                then some (.publicSym ge) else none)) := by
  obtain ⟨henv, hpub, _⟩ := newFromParts_parts env ctx hctx
  refine ⟨?_, ?_, ?_⟩
  · intro h
    unfold lookupFunction
    rw [henv, h]
  · intro offset hoff hnone
    unfold lookupFunction
    rw [henv, hoff]
    obtain ⟨e, he⟩ := rustBinarySearchBy_error_of_no_eq (scCompare offset)
      ctx.section_contributions (by
        intro x hx
        rw [Ne, scCompare_eq_iff]
        exact hnone x hx)
    show (match rustBinarySearchBy (scCompare offset) ctx.section_contributions with
      | .error _ => some none
      | .ok sc_index =>
        match computeModuleProcedures env
            ((ctx.section_contributions.getD sc_index default).module_index) with
        | none => none
        | some (.error _) => some none
        | some (.ok module_procedures) =>
          match rustBinarySearchBy (procCompare offset) module_procedures with
          | .ok procedure_index =>
            some (some (PublicOrProcedureSymbol.procedure
              ((ctx.section_contributions.getD sc_index default).module_index)
              (module_procedures.getD procedure_index default)))
          | .error _ =>
            match bsearchLeIdx
                (fun p : PublicSymbolFunction => pairCmp p.key (offset.sectionIdx, offset.offset))
                ctx.public_functions with
            | none => some none
            | some i =>
              let fun_ := ctx.public_functions.getD i default
              if fun_.start_offset.sectionIdx ≠ offset.sectionIdx then some none
              else some (some (PublicOrProcedureSymbol.publicSym fun_))) = some none
    rw [he]
  · intro offset sc_index module_procedures hoff hsc hmp hnoproc
    unfold lookupFunction
    rw [henv, hoff]
    show (match rustBinarySearchBy (scCompare offset) ctx.section_contributions with
      | .error _ => some none
      | .ok sc_index =>
        match computeModuleProcedures env
            ((ctx.section_contributions.getD sc_index default).module_index) with
        | none => none
        | some (.error _) => some none
        | some (.ok module_procedures) =>
          match rustBinarySearchBy (procCompare offset) module_procedures with
          | .ok procedure_index =>
            some (some (PublicOrProcedureSymbol.procedure
              ((ctx.section_contributions.getD sc_index default).module_index)
              (module_procedures.getD procedure_index default)))
          | .error _ =>
            match bsearchLeIdx
                (fun p : PublicSymbolFunction => pairCmp p.key (offset.sectionIdx, offset.offset))
                ctx.public_functions with
            | none => some none
            | some i =>
              let fun_ := ctx.public_functions.getD i default
              if fun_.start_offset.sectionIdx ≠ offset.sectionIdx then some none
              else some (some (PublicOrProcedureSymbol.publicSym fun_))) = _
    rw [hsc]
    show (match computeModuleProcedures env
        ((ctx.section_contributions.getD sc_index default).module_index) with
      | none => none
      | some (.error _) => some none
      | some (.ok module_procedures) =>
        match rustBinarySearchBy (procCompare offset) module_procedures with
        | .ok procedure_index =>
          some (some (PublicOrProcedureSymbol.procedure
            ((ctx.section_contributions.getD sc_index default).module_index)
            (module_procedures.getD procedure_index default)))
        | .error _ =>
          match bsearchLeIdx
              (fun p : PublicSymbolFunction => pairCmp p.key (offset.sectionIdx, offset.offset))
              ctx.public_functions with
          | none => some none
          | some i =>
            let fun_ := ctx.public_functions.getD i default
            if fun_.start_offset.sectionIdx ≠ offset.sectionIdx then some none
            else some (some (PublicOrProcedureSymbol.publicSym fun_))) = _
    rw [hmp]
    obtain ⟨e2, he2⟩ := rustBinarySearchBy_error_of_no_eq (procCompare offset)
      module_procedures (by
        intro x hx
        rw [Ne, procCompare_eq_iff]
        exact hnoproc x hx)
    show (match rustBinarySearchBy (procCompare offset) module_procedures with
      | .ok procedure_index =>
        some (some (PublicOrProcedureSymbol.procedure
          ((ctx.section_contributions.getD sc_index default).module_index)
          (module_procedures.getD procedure_index default)))
      | .error _ =>
        match bsearchLeIdx
            (fun p : PublicSymbolFunction => pairCmp p.key (offset.sectionIdx, offset.offset))
            ctx.public_functions with
        | none => some none
        | some i =>
          let fun_ := ctx.public_functions.getD i default
          if fun_.start_offset.sectionIdx ≠ offset.sectionIdx then some none
          else some (some (PublicOrProcedureSymbol.publicSym fun_))) = _
    rw [he2]
    have hsorted : ctx.public_functions.Sorted
        (fun p q => pubLE p q ∧ p.start_offset ≠ q.start_offset) := by
      rw [hpub]
      exact computePublicFunctions_sorted_strict env.globalSymbols
    have hbg := bsearchLeIdx_greatest ctx.public_functions
      (offset.sectionIdx, offset.offset) hsorted
    rcases hbs : bsearchLeIdx (fun p => pairCmp p.key (offset.sectionIdx, offset.offset))
        ctx.public_functions with _ | i
    · rw [hbs] at hbg
      rw [hbs, ← hbg]
      rfl
    · rw [hbs] at hbg
      rw [hbs, ← hbg]
      show (if (ctx.public_functions.getD i default).start_offset.sectionIdx ≠ offset.sectionIdx
          then some none
          else some (some (PublicOrProcedureSymbol.publicSym (ctx.public_functions.getD i default))))
        = some (if (ctx.public_functions.getD i default).start_offset.sectionIdx = offset.sectionIdx
          then some (PublicOrProcedureSymbol.publicSym (ctx.public_functions.getD i default))
          else none)
      by_cases h : (ctx.public_functions.getD i default).start_offset.sectionIdx = offset.sectionIdx
      · rw [if_neg (not_not_intro h), if_pos h]
      · rw [if_pos h, if_neg h]

/-- Witness for C2: on `c2env`, the probe at rva 256 misses the module's
(empty) procedure index and the fallback returns the public symbol at
(1, 128) as an open-ended match. -/
theorem c2_lookup_cascade_witness :
    lookupFunction ⟨c2env, [⟨1, 0, 512, 0⟩], [⟨⟨1, 128⟩, "?pub"⟩]⟩ 256
      = some (some (.publicSym ⟨⟨1, 128⟩, "?pub"⟩)) := by
  have h := (c2_lookup_cascade c2env ⟨c2env, [⟨1, 0, 512, 0⟩], [⟨⟨1, 128⟩, "?pub"⟩]⟩
    rfl 256).2.2 ⟨1, 256⟩ 0 [] rfl (by decide) rfl (by simp)
  rw [h]
  decide

theorem finsetSortedList_sorted (x : Finset Nat) : (finsetSortedList x).Sorted (· < ·) := by
  unfold finsetSortedList
  rcases x.max with _ | m
  · simp
  · exact (List.pairwise_lt_range _).filter _

theorem finsetSortedList_mem (x : Finset Nat) (a : Nat) :
    a ∈ finsetSortedList x ↔ a ∈ x := by
  unfold finsetSortedList
  rcases hm : x.max with _ | m
  · simp only [List.not_mem_nil, false_iff]
    intro ha
    rw [Finset.max_eq_bot.mp hm] at ha
    exact absurd ha (Finset.not_mem_empty a)
  · rw [List.mem_filter, List.mem_range]
    constructor
    · intro h
      simpa using h.2
    · intro h
      refine ⟨?_, by simpa using h⟩
      have h2 := Finset.le_max h
      rw [hm] at h2
      have h3 : a ≤ m := WithBot.coe_le_coe.mp h2
      omega

theorem coveredBy_cons (p : Nat × Nat) (l : List (Nat × Nat)) (a : Nat) :
    coveredBy (p :: l) a ↔ (p.1 ≤ a ∧ a < p.2) ∨ coveredBy l a := by
  simp [coveredBy]

theorem groupRunsGo_covered (l : List Nat) :
    ∀ s e a, s ≤ e → l.Sorted (· < ·) → (∀ b ∈ l, e < b) →
      (coveredBy (groupRunsGo s e l) a ↔ ((s ≤ a ∧ a ≤ e) ∨ a ∈ l)) := by
  induction l with
  | nil =>
    intro s e a hse _ _
    simp only [groupRunsGo]
    rw [coveredBy_cons]
    have hcov : ¬ coveredBy [] a := by simp [coveredBy]
    constructor
    · rintro (⟨h1, h2⟩ | hc)
      · exact Or.inl ⟨h1, by omega⟩
      · exact absurd hc hcov
    · rintro (⟨h1, h2⟩ | hf)
      · exact Or.inl ⟨h1, by omega⟩
      · exact absurd hf (by simp)
  | cons b rest ih =>
    intro s e a hse hsorted hgt
    have hb : e < b := hgt b (by simp)
    have hsorted2 : rest.Sorted (· < ·) := hsorted.of_cons
    have hgt2 : ∀ c ∈ rest, b < c := (List.sorted_cons.mp hsorted).1
    simp only [groupRunsGo]
    by_cases hbe : b = e + 1
    · rw [if_pos hbe]
      rw [ih s b a (by omega) hsorted2 hgt2]
      constructor
      · rintro (⟨h1, h2⟩ | hP)
        · by_cases hae : a ≤ e
          · exact Or.inl ⟨h1, hae⟩
          · right
            simp only [List.mem_cons]
            left
            omega
        · right
          simp [hP]
      · rintro (⟨h1, h2⟩ | hP)
        · exact Or.inl ⟨h1, by omega⟩
        · rcases List.mem_cons.mp hP with hP | hP
          · exact Or.inl ⟨by omega, by omega⟩
          · exact Or.inr hP
    · rw [if_neg hbe]
      rw [coveredBy_cons]
      rw [ih b b a (Nat.le_refl b) hsorted2 hgt2]
      constructor
      · rintro (⟨h1, h2⟩ | ⟨h1, h2⟩ | hP)
        · exact Or.inl ⟨h1, by omega⟩
        · right
          simp only [List.mem_cons]
          left
          omega
        · right
          simp [hP]
      · rintro (⟨h1, h2⟩ | hP)
        · exact Or.inl ⟨h1, by omega⟩
        · rcases List.mem_cons.mp hP with hP | hP
          · exact Or.inr (Or.inl ⟨by omega, by omega⟩)
          · exact Or.inr (Or.inr hP)

theorem groupRuns_covered (l : List Nat) (hsorted : l.Sorted (· < ·)) (a : Nat) :
    coveredBy (groupRuns l) a ↔ a ∈ l := by
  rcases l with _ | ⟨b, rest⟩
  · simp [groupRuns, coveredBy]
  · simp only [groupRuns]
    rw [groupRunsGo_covered rest b b a (Nat.le_refl b) hsorted.of_cons
      (List.sorted_cons.mp hsorted).1]
    simp only [List.mem_cons]
    constructor
    · rintro (⟨h1, h2⟩ | hP)
      · left
        omega
      · right
        exact hP
    · rintro (rfl | hP)
      · exact Or.inl ⟨Nat.le_refl a, Nat.le_refl a⟩
      · exact Or.inr hP

theorem toIntervals_covered (x : Finset Nat) (a : Nat) :
    coveredBy (toIntervals x) a ↔ a ∈ x := by
  unfold toIntervals
  rw [groupRuns_covered _ (finsetSortedList_sorted x) a, finsetSortedList_mem]

theorem toIntervals_empty : toIntervals ∅ = [] := by
  have hmax : (∅ : Finset Nat).max = none := Finset.max_empty
  unfold toIntervals finsetSortedList
  rw [hmax]
  rfl

theorem processInlineeSymbols_spec (env : Env) (inlineeKeys : List Nat)
    (proc_offset : PdbOffset) (fuel : Nat) (syms : List PdbSymbol) (site : InlineSiteData)
    (call_depth : Nat) (lines0 : List InlineRange) (L : List InlineRange) (R : Finset Nat)
    (rest : List PdbSymbol)
    (h : processInlineeSymbols env inlineeKeys proc_offset (fuel + 1) syms site call_depth
      lines0 = some (L, R, rest)) :
    ∃ ol r0 fi L2 C rest2,
      processOwnLines env inlineeKeys site call_depth lines0 = some (ol, r0, fi) ∧
      inlineChildLoop env inlineeKeys proc_offset fuel syms site.endIndex call_depth ol
        = some (L2, C, rest2) ∧
      rest = rest2 ∧ R = r0 ∪ C ∧
      L = L2 ++ (toIntervals (C \ r0)).map (gapRange site call_depth fi) := by
  simp only [processInlineeSymbols] at h
  rcases hol : processOwnLines env inlineeKeys site call_depth lines0 with _ | ⟨ol, r0, fi⟩
  · rw [hol] at h
    exact absurd h (by simp)
  · rw [hol] at h
    have h2 : (match inlineChildLoop env inlineeKeys proc_offset fuel syms site.endIndex
        call_depth ol with
      | none => none
      | some (lines, callee_ranges, rest) =>
        if ¬ callee_ranges ⊆ r0 then
          some (lines ++ (toIntervals (callee_ranges \ r0)).map (gapRange site call_depth fi),
            r0 ∪ (callee_ranges \ r0), rest)
        else
          some (lines, r0, rest)) = some (L, R, rest) := h
    rcases hcl : inlineChildLoop env inlineeKeys proc_offset fuel syms site.endIndex
        call_depth ol with _ | ⟨L2, C, rest2⟩
    · rw [hcl] at h2
      exact absurd h2 (by simp)
    · rw [hcl] at h2
      by_cases hsub : C ⊆ r0
      · have h3 : (some (L2, r0, rest2) : Option (List InlineRange × Finset Nat × List PdbSymbol))
            = some (L, R, rest) := by
          rw [← h2]
          show _ = (if ¬ C ⊆ r0 then _ else _)
          rw [if_neg (not_not_intro hsub)]
        have h4 := Option.some.inj h3
        rw [Prod.mk.injEq, Prod.mk.injEq] at h4
        refine ⟨ol, r0, fi, L2, C, rest2, rfl, hcl, h4.2.2.symm, ?_, ?_⟩
        · rw [← h4.2.1, Finset.union_eq_left.mpr hsub]
        · rw [← h4.1, Finset.sdiff_eq_empty_iff_subset.mpr hsub, toIntervals_empty]
          simp
      · have h3 : (some (L2 ++ (toIntervals (C \ r0)).map (gapRange site call_depth fi),
            r0 ∪ (C \ r0), rest2)
              : Option (List InlineRange × Finset Nat × List PdbSymbol))
            = some (L, R, rest) := by
          rw [← h2]
          show _ = (if ¬ C ⊆ r0 then _ else _)
          rw [if_pos hsub]
        have h4 := Option.some.inj h3
        rw [Prod.mk.injEq, Prod.mk.injEq] at h4
        refine ⟨ol, r0, fi, L2, C, rest2, rfl, hcl, h4.2.2.symm, ?_, h4.1.symm⟩
        rw [← h4.2.1, Finset.union_sdiff_self_eq_union]

/-- C6: the interval set returned by `process_inlinee_symbols` for a site
(after any gap-patching) is a superset of the union of the interval sets
returned by all its nested child inline sites (the set accumulated by the
child-symbol loop). -/
theorem c6_coverage_invariant (env : Env) (inlineeKeys : List Nat) (proc_offset : PdbOffset)
    (fuel : Nat) (syms : List PdbSymbol) (site : InlineSiteData) (call_depth : Nat)
    (lines0 : List InlineRange) (L : List InlineRange) (R : Finset Nat) (rest : List PdbSymbol)
    (h : processInlineeSymbols env inlineeKeys proc_offset (fuel + 1) syms site call_depth
      lines0 = some (L, R, rest)) :
    ∃ ol r0 fi L2 C rest2,
      processOwnLines env inlineeKeys site call_depth lines0 = some (ol, r0, fi) ∧
      inlineChildLoop env inlineeKeys proc_offset fuel syms site.endIndex call_depth ol
        = some (L2, C, rest2) ∧
      C ⊆ R := by
  obtain ⟨ol, r0, fi, L2, C, rest2, h1, h2, _, hR, _⟩ :=
    processInlineeSymbols_spec env inlineeKeys proc_offset fuel syms site call_depth
      lines0 L R rest h
  refine ⟨ol, r0, fi, L2, C, rest2, h1, h2, ?_⟩
  rw [hR]
  exact Finset.subset_union_right

/-- Witness for C6 at the concrete `c5stream` scenario: the nested site's
16-byte set is contained in the parent's post-patch set. -/
theorem c6_coverage_invariant_witness :
    ∃ ol r0 fi L2 C rest2,
      processOwnLines c5env [100, 200] c5siteA 0 [] = some (ol, r0, fi) ∧
      inlineChildLoop c5env [100, 200] ⟨1, 0⟩ 9 (c5stream.symbols.drop 2) c5siteA.endIndex 0 ol
        = some (L2, C, rest2) ∧
      C ⊆ Finset.Ico 0 16 :=
  c6_coverage_invariant c5env [100, 200] ⟨1, 0⟩ 9 (c5stream.symbols.drop 2) c5siteA 0 []
    [⟨0, 8, 0, 100, some 7, some 4⟩, ⟨0, 16, 1, 200, some 9, some 2⟩,
      ⟨8, 16, 0, 100, some 7, none⟩]
    (Finset.Ico 0 16) [⟨100, .other⟩] (by decide)

/-- C5 (corrected): every gap-patched `InlineRange` synthesized by
`process_inlinee_symbols` is placed at the parent site's call depth, carries
the parent site's inlinee identity, covers exactly the addresses of the
children's union not covered by the parent's own interval set, and has no
line; its file index, however, is not unknown in general: it is the file
index of the parent's first own line contribution (unknown only when the
parent has no own line contributions). -/
theorem c5_gap_ranges (env : Env) (inlineeKeys : List Nat) (proc_offset : PdbOffset)
    (fuel : Nat) (syms : List PdbSymbol) (site : InlineSiteData) (call_depth : Nat)
    (lines0 : List InlineRange) (L : List InlineRange) (R : Finset Nat) (rest : List PdbSymbol)
    (h : processInlineeSymbols env inlineeKeys proc_offset (fuel + 1) syms site call_depth
      lines0 = some (L, R, rest)) :
    ∃ ol r0 fi L2 C rest2,
      processOwnLines env inlineeKeys site call_depth lines0 = some (ol, r0, fi) ∧
      inlineChildLoop env inlineeKeys proc_offset fuel syms site.endIndex call_depth ol
        = some (L2, C, rest2) ∧
      L = L2 ++ (toIntervals (C \ r0)).map (gapRange site call_depth fi) ∧
      (∀ g ∈ (toIntervals (C \ r0)).map (gapRange site call_depth fi),
        g.call_depth = call_depth ∧ g.inlinee = site.inlinee ∧ g.line_start = none ∧
          g.file_index = fi) ∧
      (∀ a, (∃ g ∈ (toIntervals (C \ r0)).map (gapRange site call_depth fi),
        g.start_offset ≤ a ∧ a < g.end_offset) ↔ (a ∈ C ∧ a ∉ r0)) := by
  obtain ⟨ol, r0, fi, L2, C, rest2, h1, h2, _, _, hL⟩ :=
    processInlineeSymbols_spec env inlineeKeys proc_offset fuel syms site call_depth
      lines0 L R rest h
  refine ⟨ol, r0, fi, L2, C, rest2, h1, h2, hL, ?_, ?_⟩
  · intro g hg
    rcases List.mem_map.mp hg with ⟨p, _, hp⟩
    rw [← hp]
    exact ⟨rfl, rfl, rfl, rfl⟩
  · intro a
    have hcov := toIntervals_covered (C \ r0) a
    rw [Finset.mem_sdiff] at hcov
    rw [← hcov]
    unfold coveredBy
    constructor
    · rintro ⟨g, hg, hga⟩
      rcases List.mem_map.mp hg with ⟨p, hp, hgp⟩
      rw [← hgp] at hga
      exact ⟨p, hp, hga⟩
    · rintro ⟨p, hp, hpa⟩
      exact ⟨gapRange site call_depth fi p, List.mem_map.mpr ⟨p, hp, rfl⟩, hpa⟩

/-- C5 counterexample: in the `c5stream` scenario the synthesized gap range
(the range [8, 16) at depth 0 with no line) carries the parent's file index
`some 7`, not an unknown file, so the claim that gap-patched ranges have
unknown file is false. -/
theorem c5_counterexample :
    computeProcedureInlineRanges c5env c5stream c5proc
      = some [⟨0, 8, 0, 100, some 7, some 4⟩, ⟨8, 16, 0, 100, some 7, none⟩,
          ⟨0, 16, 1, 200, some 9, some 2⟩] := by decide

/-- Witness for C5's amended theorem at the `c5stream` scenario. -/
theorem c5_gap_ranges_witness :
    ∃ ol r0 fi L2 C rest2,
      processOwnLines c5env [100, 200] c5siteA 0 [] = some (ol, r0, fi) ∧
      inlineChildLoop c5env [100, 200] ⟨1, 0⟩ 9 (c5stream.symbols.drop 2) c5siteA.endIndex 0 ol
        = some (L2, C, rest2) ∧
      [⟨0, 8, 0, 100, some 7, some 4⟩, ⟨0, 16, 1, 200, some 9, some 2⟩,
          (⟨8, 16, 0, 100, some 7, none⟩ : InlineRange)]
        = L2 ++ (toIntervals (C \ r0)).map (gapRange c5siteA 0 fi) ∧
      (∀ g ∈ (toIntervals (C \ r0)).map (gapRange c5siteA 0 fi),
        g.call_depth = 0 ∧ g.inlinee = c5siteA.inlinee ∧ g.line_start = none ∧
          g.file_index = fi) ∧
      (∀ a, (∃ g ∈ (toIntervals (C \ r0)).map (gapRange c5siteA 0 fi),
        g.start_offset ≤ a ∧ a < g.end_offset) ↔ (a ∈ C ∧ a ∉ r0)) :=
  c5_gap_ranges c5env [100, 200] ⟨1, 0⟩ 9 (c5stream.symbols.drop 2) c5siteA 0 []
    [⟨0, 8, 0, 100, some 7, some 4⟩, ⟨0, 16, 1, 200, some 9, some 2⟩,
      ⟨8, 16, 0, 100, some 7, none⟩]
    (Finset.Ico 0 16) [⟨100, .other⟩] (by decide)

/-- C7: the flattened list of inline ranges produced by
`compute_procedure_inline_ranges` is sorted by call depth ascending and,
within equal call depth, by start address ascending. -/
theorem c7_inline_ranges_sorted (env : Env) (m : ModuleStream) (proc : ProcedureSymbolFunction)
    (l : List InlineRange) (h : computeProcedureInlineRanges env m proc = some l) :
    l.Sorted inlineRangeLE := by
  simp only [computeProcedureInlineRanges] at h
  rcases htop : procTopLoop env m.inlineeKeys proc.offset
      (2 * ((skipTo proc.symbol_index m.symbols).drop 1).length + 2)
      ((skipTo proc.symbol_index m.symbols).drop 1) proc.end_symbol_index [] with _ | lines
  · rw [htop] at h
    exact absurd h (by simp)
  · rw [htop] at h
    rw [← Option.some.inj h]
    exact List.sorted_insertionSort inlineRangeLE lines

/-- Witness for C7 at the `c5stream` scenario: the three produced ranges are
in breadth-first order. -/
theorem c7_inline_ranges_sorted_witness :
    ([⟨0, 8, 0, 100, some 7, some 4⟩, ⟨8, 16, 0, 100, some 7, none⟩,
        (⟨0, 16, 1, 200, some 9, some 2⟩ : InlineRange)]).Sorted inlineRangeLE :=
  c7_inline_ranges_sorted c5env c5stream c5proc _ (by decide)

theorem frameLoop_extends (env : Env) (module_index probe : Nat) :
    ∀ fuel inline_ranges frames, ∃ tail,
      frameLoop env module_index probe fuel inline_ranges frames = frames ++ tail := by
  intro fuel
  induction fuel with
  | zero =>
    intro rs frames
    exact ⟨[], by simp [frameLoop]⟩
  | succ fuel ih =>
    intro rs frames
    simp only [frameLoop]
    rcases hb : rustBinarySearchBy (inlineRangeCompare (frames.length - 1) probe) rs with e | i
    · exact ⟨[], by simp⟩
    · obtain ⟨tail, htail⟩ := ih (rs.drop (i + 1))
        (frames ++ [⟨env.formatId (rs.getD i default).inlinee,
          (rs.getD i default).file_index.bind (env.fileName module_index),
          (rs.getD i default).line_start⟩])
      refine ⟨⟨env.formatId (rs.getD i default).inlinee,
        (rs.getD i default).file_index.bind (env.fileName module_index),
        (rs.getD i default).line_start⟩ :: tail, ?_⟩
      show frameLoop env module_index probe fuel (rs.drop (i + 1))
        (frames ++ [⟨env.formatId (rs.getD i default).inlinee,
          (rs.getD i default).file_index.bind (env.fileName module_index),
          (rs.getD i default).line_start⟩]) = _
      rw [htail, List.append_assoc]
      rfl

/-- The inline-range comparator of `find_frames` answers `eq` exactly for a
range at the current depth whose half-open interval contains the probe. -/
theorem inlineRangeCompare_eq_iff (d probe : Nat) (r : InlineRange) :
    inlineRangeCompare d probe r = .eq ↔
      (r.call_depth = d ∧ r.start_offset ≤ probe ∧ probe < r.end_offset) := by
  unfold inlineRangeCompare
  split_ifs <;> simp <;> omega

/-- Full characterization of the inline-frame loop: starting from a non-empty
stack it appends the frames of a list of matched ranges, the k-th of which is
accepted by the comparator at depth `frames.length - 1 + k`. -/
theorem frameLoop_spec (env : Env) (module_index probe : Nat) :
    ∀ fuel inline_ranges frames, frames ≠ [] →
      ∃ matched : List InlineRange,
        frameLoop env module_index probe fuel inline_ranges frames
          = frames ++ matched.map (inlineFrame env module_index) ∧
        ∀ k (hk : k < matched.length),
          inlineRangeCompare (frames.length - 1 + k) probe
            (matched.get ⟨k, hk⟩) = .eq := by
  intro fuel
  induction fuel with
  | zero =>
    intro rs frames _
    refine ⟨[], by simp [frameLoop], ?_⟩
    intro k hk
    simp at hk
  | succ fuel ih =>
    intro rs frames hne
    simp only [frameLoop]
    rcases hb : rustBinarySearchBy (inlineRangeCompare (frames.length - 1) probe) rs
        with e | i
    · refine ⟨[], by simp, ?_⟩
      intro k hk
      simp at hk
    · obtain ⟨matched, hm1, hm2⟩ := ih (rs.drop (i + 1))
        (frames ++ [inlineFrame env module_index (rs.getD i default)]) (by simp)
      refine ⟨(rs.getD i default) :: matched, ?_, ?_⟩
      · show frameLoop env module_index probe fuel (rs.drop (i + 1))
          (frames ++ [inlineFrame env module_index (rs.getD i default)]) = _
        rw [hm1, List.append_assoc]
        rfl
      · intro k hk
        rcases k with _ | k
        · have hok := (rustBinarySearchBy_ok
            (inlineRangeCompare (frames.length - 1) probe) rs i hb).2
          show inlineRangeCompare (frames.length - 1 + 0) probe (rs.getD i default) = .eq
          rw [Nat.add_zero]
          exact hok
        · have hk2 : k < matched.length := by
            have := hk
            simp at this
            omega
          have h2 := hm2 k hk2
          have hlen : 1 ≤ frames.length := List.length_pos.mpr hne
          have heq : (frames ++ [inlineFrame env module_index (rs.getD i default)]).length
              - 1 + k = frames.length - 1 + (k + 1) := by
            rw [List.length_append]
            simp
            omega
          rw [heq] at h2
          exact h2

/-- C1: whenever `find_frames` returns a match, the frame list is non-empty
and its last (outermost) frame is the non-inlined resolution of the address:
for a public-only match the list is exactly one frame with no file and no
line (and the match is open-ended); for a procedure match the frame list is
the reversal of the frames of a matched inline-range list followed by the
outer frame `procedureFrame` — the k-th matched range sits at call depth k
and contains the probe, so the inline frames precede the outer frame ordered
innermost (deepest call depth) first. -/
theorem c1_find_frames (ctx : Ctx) (probe : Nat) (ff : FunctionFrames)
    (h : findFrames ctx probe = some (some ff)) :
    ff.frames ≠ [] ∧
    ((∃ f, lookupFunction ctx probe = some (some (.publicSym f)) ∧
        ff.frames = [⟨some f.name, none, none⟩] ∧ ff.end_rva = none) ∨
      (∃ module_index proc outer, ∃ matched : List InlineRange,
        lookupFunction ctx probe = some (some (.procedure module_index proc)) ∧
        procedureFrame ctx.env module_index proc probe = some outer ∧
        ff.frames = (matched.map (inlineFrame ctx.env module_index)).reverse ++ [outer] ∧
        (∀ k (hk : k < matched.length), (matched.get ⟨k, hk⟩).call_depth = k ∧
          (matched.get ⟨k, hk⟩).start_offset ≤ probe ∧
          probe < (matched.get ⟨k, hk⟩).end_offset) ∧
        ff.frames.getLast? = some outer)) := by
  simp only [findFrames] at h
  rcases hlk : lookupFunction ctx probe with _ | lk
  · rw [hlk] at h
    exact absurd h (by simp)
  · rw [hlk] at h
    rcases lk with _ | pp
    · exact absurd h (by simp)
    · rcases pp with f | ⟨module_index, proc⟩
      · have h2 : (match ctx.env.offsetToRva f.start_offset with
            | none => some none
            | some start_rva =>
              some (some ⟨start_rva, none, [⟨some f.name, none, none⟩]⟩))
              = some (some ff) := h
        rcases hrva : ctx.env.offsetToRva f.start_offset with _ | start_rva
        · rw [hrva] at h2
          exact absurd h2 (by simp)
        · rw [hrva] at h2
          have h3 : (⟨start_rva, none, [⟨some f.name, none, none⟩]⟩ : FunctionFrames) = ff :=
            Option.some.inj (Option.some.inj h2)
          rw [← h3]
          exact ⟨by simp, Or.inl ⟨f, rfl, rfl, rfl⟩⟩
      · have h2 : (match ctx.env.offsetToRva proc.offset with
            | none => some none
            | some start_rva =>
              match ctx.env.moduleInfo module_index with
              | .ok (some m) =>
                match procedureFrame ctx.env module_index proc probe with
                | none => none
                | some frame =>
                  match computeProcedureInlineRanges ctx.env m proc with
                  | none => none
                  | some inline_ranges =>
                    some (some ⟨start_rva, some (u32 (start_rva + proc.len)),
                      (frameLoop ctx.env module_index probe (inline_ranges.length + 1)
                        inline_ranges [frame]).reverse⟩)
              | _ => none) = some (some ff) := h
        rcases hrva : ctx.env.offsetToRva proc.offset with _ | start_rva
        · rw [hrva] at h2
          exact absurd h2 (by simp)
        · rw [hrva] at h2
          have h3 : (match ctx.env.moduleInfo module_index with
              | .ok (some m) =>
                match procedureFrame ctx.env module_index proc probe with
                | none => none
                | some frame =>
                  match computeProcedureInlineRanges ctx.env m proc with
                  | none => none
                  | some inline_ranges =>
                    some (some ⟨start_rva, some (u32 (start_rva + proc.len)),
                      (frameLoop ctx.env module_index probe (inline_ranges.length + 1)
                        inline_ranges [frame]).reverse⟩)
              | _ => none) = some (some ff) := h2
          rcases hmi : ctx.env.moduleInfo module_index with e | om
          · rw [hmi] at h3
            exact absurd h3 (by simp)
          · rw [hmi] at h3
            rcases om with _ | m
            · exact absurd h3 (by simp)
            · have h4 : (match procedureFrame ctx.env module_index proc probe with
                  | none => none
                  | some frame =>
                    match computeProcedureInlineRanges ctx.env m proc with
                    | none => none
                    | some inline_ranges =>
                      some (some ⟨start_rva, some (u32 (start_rva + proc.len)),
                        (frameLoop ctx.env module_index probe (inline_ranges.length + 1)
                          inline_ranges [frame]).reverse⟩)) = some (some ff) := h3
              rcases hpf : procedureFrame ctx.env module_index proc probe with _ | frame
              · rw [hpf] at h4
                exact absurd h4 (by simp)
              · rw [hpf] at h4
                have h5 : (match computeProcedureInlineRanges ctx.env m proc with
                    | none => none
                    | some inline_ranges =>
                      some (some ⟨start_rva, some (u32 (start_rva + proc.len)),
                        (frameLoop ctx.env module_index probe (inline_ranges.length + 1)
                          inline_ranges [frame]).reverse⟩)) = some (some ff) := h4
                rcases hir : computeProcedureInlineRanges ctx.env m proc with _ | inline_ranges
                · rw [hir] at h5
                  exact absurd h5 (by simp)
                · rw [hir] at h5
                  have h6 : (⟨start_rva, some (u32 (start_rva + proc.len)),
                      (frameLoop ctx.env module_index probe (inline_ranges.length + 1)
                        inline_ranges [frame]).reverse⟩ : FunctionFrames) = ff :=
                    Option.some.inj (Option.some.inj h5)
                  obtain ⟨matched, hm1, hm2⟩ := frameLoop_spec ctx.env module_index probe
                    (inline_ranges.length + 1) inline_ranges [frame] (by simp)
                  have hframes : (frameLoop ctx.env module_index probe
                      (inline_ranges.length + 1) inline_ranges [frame]).reverse
                      = (matched.map (inlineFrame ctx.env module_index)).reverse ++ [frame] := by
                    rw [hm1, List.reverse_append]
                    simp
                  rw [← h6]
                  constructor
                  · simp only [ne_eq]
                    rw [hframes]
                    simp
                  · refine Or.inr ⟨module_index, proc, frame, matched, rfl, hpf,
                      hframes, ?_, ?_⟩
                    · intro k hk
                      have h7 := hm2 k hk
                      have h8 : List.length [frame] - 1 + k = k := by simp
                      rw [h8] at h7
                      exact (inlineRangeCompare_eq_iff k probe _).mp h7
                    · show (frameLoop ctx.env module_index probe
                        (inline_ranges.length + 1) inline_ranges [frame]).reverse.getLast?
                        = some frame
                      rw [hframes]
                      simp

/-- Witness for C1 at the `c1env` scenario: `find_frames(5)` returns three
frames — two inline frames innermost first, then the non-inlined resolution
of address 5 inside procedure "foo" as the last frame. -/
theorem c1_find_frames_witness :
    c1ff.frames ≠ [] ∧
    ((∃ f, lookupFunction c1ctx 5 = some (some (.publicSym f)) ∧
        c1ff.frames = [⟨some f.name, none, none⟩] ∧ c1ff.end_rva = none) ∨
      (∃ module_index proc outer, ∃ matched : List InlineRange,
        lookupFunction c1ctx 5 = some (some (.procedure module_index proc)) ∧
        procedureFrame c1ctx.env module_index proc 5 = some outer ∧
        c1ff.frames = (matched.map (inlineFrame c1ctx.env module_index)).reverse ++ [outer] ∧
        (∀ k (hk : k < matched.length), (matched.get ⟨k, hk⟩).call_depth = k ∧
          (matched.get ⟨k, hk⟩).start_offset ≤ 5 ∧
          5 < (matched.get ⟨k, hk⟩).end_offset) ∧
        c1ff.frames.getLast? = some outer)) :=
  c1_find_frames c1ctx 5 c1ff (by decide)

/-- C8 (corrected): the full rva list is strictly ascending (each address at
most once) and contains exactly the translatable start addresses of collected
public function symbols and of module procedures/thunks; the sequence yielded
by `functions()` is this list filtered through `find_function`, so an address
whose lookup misses is skipped rather than yielded. -/
theorem c8_functions_list (env : Env) (ctx : Ctx) (hctx : newFromParts env = .ok ctx) :
    (computeFullRvaList ctx).Sorted (· < ·) ∧
    (∀ rva, rva ∈ computeFullRvaList ctx ↔
      ((∃ pf ∈ collectPublicFunctions env.globalSymbols,
          env.offsetToRva pf.start_offset = some rva) ∨
        (∃ mi procs, mi < env.moduleCount ∧
          computeModuleProcedures env mi = some (.ok procs) ∧
          ∃ p ∈ procs, env.offsetToRva p.offset = some rva))) ∧
    functionsList ctx = (computeFullRvaList ctx).filterMap (fun rva =>
      match findFunction ctx rva with
      | some (some f) => some f
      | _ => none) := by
  obtain ⟨henv, hpub, _⟩ := newFromParts_parts env ctx hctx
  refine ⟨?_, ?_, rfl⟩
  · have hs := dedupByKey_sorted (fun rva : Nat => rva) (· ≤ ·)
      (fun a b h1 h2 => (by omega : a = b)) (fun a b c h1 h2 => by
        have h3 : a = b := h1
        omega) _
      (List.sorted_insertionSort (· ≤ ·)
        ((ctx.public_functions.filterMap fun f => ctx.env.offsetToRva f.start_offset) ++
          (List.range ctx.env.moduleCount).flatMap fun module_index =>
            match computeModuleProcedures ctx.env module_index with
            | some (.ok procs) => procs.filterMap fun p => ctx.env.offsetToRva p.offset
            | _ => []))
    refine hs.imp ?_
    intro a b hab
    have h1 : a ≤ b := hab.1
    have h2 : a ≠ b := hab.2
    omega
  · intro rva
    unfold computeFullRvaList
    constructor
    · intro h
      have h2 := (dedupByKey_sublist (fun rva : Nat => rva) _).subset h
      rw [List.mem_insertionSort, List.mem_append] at h2
      rcases h2 with h2 | h2
      · rw [List.mem_filterMap] at h2
        rcases h2 with ⟨pf, hpf, hrva⟩
        left
        rw [hpub] at hpf
        have hsub := (dedupByKey_sublist (fun p : PublicSymbolFunction => p.start_offset)
          (List.insertionSort pubLE (collectPublicFunctions env.globalSymbols))).subset hpf
        rw [List.mem_insertionSort] at hsub
        exact ⟨pf, hsub, by rw [← henv]; exact hrva⟩
      · rw [List.mem_flatMap] at h2
        rcases h2 with ⟨mi, hmi, hrva⟩
        rw [List.mem_range] at hmi
        right
        rcases hmp : computeModuleProcedures ctx.env mi with _ | emp
        · rw [hmp] at hrva
          simp at hrva
        · rcases emp with e | procs
          · rw [hmp] at hrva
            simp at hrva
          · rw [hmp] at hrva
            rw [List.mem_filterMap] at hrva
            rcases hrva with ⟨p, hp, hrva⟩
            exact ⟨mi, procs, by rw [← henv]; exact hmi, by rw [← henv]; exact hmp,
              p, hp, by rw [← henv]; exact hrva⟩
    · intro h
      have hmem : rva ∈
          ((ctx.public_functions.filterMap fun f => ctx.env.offsetToRva f.start_offset) ++
            (List.range ctx.env.moduleCount).flatMap fun module_index =>
              match computeModuleProcedures ctx.env module_index with
              | some (.ok procs) => procs.filterMap fun p => ctx.env.offsetToRva p.offset
              | _ => []) := by
        rw [List.mem_append]
        rcases h with ⟨pf, hpf, hrva⟩ | ⟨mi, procs, hmi, hmp, p, hp, hrva⟩
        · left
          rw [List.mem_filterMap]
          obtain ⟨q, hq, hqoff⟩ := dedupByKey_key_cover
            (fun p : PublicSymbolFunction => p.start_offset)
            (List.insertionSort pubLE (collectPublicFunctions env.globalSymbols)) pf
            ((List.mem_insertionSort pubLE).mpr hpf)
          refine ⟨q, ?_, ?_⟩
          · rw [hpub]
            exact hq
          · rw [henv, hqoff]
            exact hrva
        · right
          rw [List.mem_flatMap]
          refine ⟨mi, by rw [List.mem_range, henv]; exact hmi, ?_⟩
          rw [henv, hmp]
          rw [List.mem_filterMap]
          exact ⟨p, hp, hrva⟩
      obtain ⟨y, hy, hyk⟩ := dedupByKey_key_cover (fun rva : Nat => rva) _ rva
        ((List.mem_insertionSort (· ≤ ·)).mpr hmem)
      rw [show y = rva from hyk] at hy
      exact hy

/-- C8 counterexample: in `c8env` the address 16 starts a public function
symbol, yet `functions()` yields nothing because `find_function(16)` misses
(no section contribution covers the address), so `functions()` does not
yield a `Function` for every address that starts a public function symbol. -/
theorem c8_counterexample :
    newFromParts c8env = .ok c8ctx ∧
    computeFullRvaList c8ctx = [16] ∧
    functionsList c8ctx = [] :=
  ⟨rfl, by decide, by decide⟩

/-- Witness for C8's amended theorem at the `c1env` scenario: the single
procedure start produces the candidate list [0], and `functions()` yields
its resolution. -/
theorem c8_functions_list_witness :
    (computeFullRvaList c1ctx).Sorted (· < ·) ∧
    functionsList c1ctx = (computeFullRvaList c1ctx).filterMap (fun rva =>
      match findFunction c1ctx rva with
      | some (some f) => some f
      | _ => none) :=
  ⟨(c8_functions_list c1env c1ctx rfl).1, (c8_functions_list c1env c1ctx rfl).2.2⟩

theorem lookup_cons_self (l : List (Nat × β)) (i : Nat) (v : β) :
    ((i, v) :: l).lookup i = some v := by
  simp [List.lookup]

theorem lookup_cons_ne (l : List (Nat × β)) (i j : Nat) (v : β) (h : j ≠ i) :
    ((i, v) :: l).lookup j = l.lookup j := by
  have hb : (j == i) = false := by
    simp [h]
  simp [List.lookup, hb]

theorem getModuleInfoS_spec (env : Env) (i : Nat) (s : CtxState)
    (r : Except Unit (Option ModuleStream)) (s' : CtxState)
    (h : getModuleInfoS env i s = (r, s')) :
    (∀ j v, s.module_contents.lookup j = some v → s'.module_contents.lookup j = some v) ∧
    s'.module_procedures = s.module_procedures ∧
    (∀ m, r = .ok (some m) → s'.module_contents.lookup i = some m) := by
  unfold getModuleInfoS at h
  rcases hc : s.module_contents.lookup i with _ | m
  · rw [hc] at h
    rcases hmi : env.moduleInfo i with e | om
    · rw [hmi] at h
      rw [Prod.mk.injEq] at h
      rw [← h.2]
      exact ⟨fun j v hv => hv, rfl, fun m hm => absurd (h.1 ▸ hm) (by simp)⟩
    · rw [hmi] at h
      rcases om with _ | m
      · rw [Prod.mk.injEq] at h
        rw [← h.2]
        exact ⟨fun j v hv => hv, rfl, fun m hm => absurd (h.1 ▸ hm) (by simp)⟩
      · rw [Prod.mk.injEq] at h
        rw [← h.2]
        refine ⟨?_, rfl, ?_⟩
        · intro j v hv
          have hji : j ≠ i := by
            intro hj
            rw [hj, hc] at hv
            exact absurd hv (by simp)
          rw [show ({ s with module_contents := (i, m) :: s.module_contents }
              : CtxState).module_contents = (i, m) :: s.module_contents from rfl]
          rw [lookup_cons_ne _ i j m hji]
          exact hv
        · intro m2 hm
          have : Except.ok (some m) = Except.ok (some m2) := h.1 ▸ hm
          have hm2 : m = m2 := by
            have h3 := Except.ok.inj this
            exact Option.some.inj h3
          rw [← hm2]
          exact lookup_cons_self _ i m
  · rw [hc] at h
    rw [Prod.mk.injEq] at h
    rw [← h.2]
    refine ⟨fun j v hv => hv, rfl, ?_⟩
    intro m2 hm
    have : Except.ok (some m) = Except.ok (some m2) := h.1 ▸ hm
    have hm2 : m = m2 := Option.some.inj (Except.ok.inj this)
    rw [← hm2]
    exact hc

theorem computeModuleProceduresS_spec (env : Env) (i : Nat) (s : CtxState)
    (procs : List ProcedureSymbolFunction) (s' : CtxState)
    (h : computeModuleProceduresS env i s = some (.ok procs, s')) :
    (∀ j v, s.module_contents.lookup j = some v → s'.module_contents.lookup j = some v) ∧
    s'.module_procedures = s.module_procedures ∧
    (procs ≠ [] → ∃ m, s'.module_contents.lookup i = some m) := by
  unfold computeModuleProceduresS at h
  by_cases hcount : i < env.moduleCount
  · rw [if_pos hcount] at h
    rcases hgi : getModuleInfoS env i s with ⟨r, s1⟩
    rw [hgi] at h
    have hspec := getModuleInfoS_spec env i s r s1 hgi
    rcases r with e | om
    · exact absurd h (by simp)
    · rcases om with _ | m
      · have h3 := Option.some.inj h
        rw [Prod.mk.injEq] at h3
        have hprocs : procs = [] := (Except.ok.inj h3.1).symm
        rw [← h3.2]
        exact ⟨hspec.1, hspec.2.1, fun hne => absurd hprocs hne⟩
      · have h3 := Option.some.inj h
        rw [Prod.mk.injEq] at h3
        rw [← h3.2]
        refine ⟨hspec.1, hspec.2.1, fun _ => ⟨m, hspec.2.2 m rfl⟩⟩
  · rw [if_neg hcount] at h
    exact absurd h (by simp)

theorem getModuleProceduresS_spec (env : Env) (i : Nat) (s : CtxState)
    (procs : List ProcedureSymbolFunction) (s' : CtxState) (hinv : StateInv s)
    (h : getModuleProceduresS env i s = some (.ok procs, s')) :
    StateInv s' ∧ (procs ≠ [] → ∃ m, s'.module_contents.lookup i = some m) := by
  unfold getModuleProceduresS at h
  rcases hc : s.module_procedures.lookup i with _ | cached
  · rw [hc] at h
    rcases hcp : computeModuleProceduresS env i s with _ | ⟨r, s1⟩
    · rw [hcp] at h
      exact absurd h (by simp)
    · rw [hcp] at h
      rcases r with e | procs1
      · exact absurd h (by simp)
      · have hspec := computeModuleProceduresS_spec env i s procs1 s1 hcp
        have h3 := Option.some.inj h
        rw [Prod.mk.injEq] at h3
        have hprocs : procs1 = procs := Except.ok.inj h3.1
        subst hprocs
        rw [← h3.2]
        constructor
        · intro j q hq hne
          by_cases hji : j = i
          · subst hji
            rw [show ({ s1 with module_procedures := (j, procs1) :: s1.module_procedures }
                : CtxState).module_procedures = (j, procs1) :: s1.module_procedures from rfl,
              lookup_cons_self] at hq
            have hq2 : procs1 = q := Option.some.inj hq
            subst hq2
            exact hspec.2.2 hne
          · rw [show ({ s1 with module_procedures := (i, procs1) :: s1.module_procedures }
                : CtxState).module_procedures = (i, procs1) :: s1.module_procedures from rfl,
              lookup_cons_ne _ i j procs1 hji, hspec.2.1] at hq
            obtain ⟨m, hm⟩ := hinv j q hq hne
            exact ⟨m, hspec.1 j m hm⟩
        · intro hne
          exact hspec.2.2 hne
  · rw [hc] at h
    have h3 := Option.some.inj h
    rw [Prod.mk.injEq] at h3
    have hprocs : cached = procs := Except.ok.inj h3.1
    subst hprocs
    rw [← h3.2]
    refine ⟨hinv, fun hne => hinv i cached hc hne⟩

/-- C10: in `find_frames`, whenever the lookup cascade returns a procedure
match for the probed address, the state invariant is preserved and the
subsequent `get_module_info` call for the procedure's module returns
`Ok(Some(..))` without changing the cache state — the module contents were
parsed and cached when the module's procedure index was built — so the two
`unwrap` calls on its result cannot panic. -/
theorem c10_module_info_cached (ctx : Ctx) (probe : Nat) (s s' : CtxState)
    (module_index : Nat) (proc : ProcedureSymbolFunction)
    (hinv : StateInv s)
    (h : lookupFunctionS ctx probe s =
      some (some (.procedure module_index proc), s')) :
    StateInv s' ∧
    ∃ m, getModuleInfoS ctx.env module_index s' = (.ok (some m), s') := by
  rcases ho : ctx.env.rvaToOffset probe with _ | offset
  · simp only [lookupFunctionS, ho] at h
    simp at h
  · rcases hsc : rustBinarySearchBy (scCompare offset) ctx.section_contributions
        with e | sc_index
    · simp only [lookupFunctionS, ho, hsc] at h
      simp at h
    · rcases hgp : getModuleProceduresS ctx.env
          ((ctx.section_contributions.getD sc_index default).module_index) s
          with _ | ⟨r, s1⟩
      · simp only [lookupFunctionS, ho, hsc, hgp] at h
        simp at h
      · rcases r with e | procs
        · simp only [lookupFunctionS, ho, hsc, hgp] at h
          simp at h
        · rcases hpb : rustBinarySearchBy (procCompare offset) procs with e2 | pidx
          · simp only [lookupFunctionS, ho, hsc, hgp, hpb] at h
            rcases hlb : bsearchLeIdx
                (fun p => pairCmp p.key (offset.sectionIdx, offset.offset))
                ctx.public_functions with _ | i
            · simp only [hlb] at h
              simp at h
            · simp only [hlb] at h
              by_cases hd : (ctx.public_functions.getD i default).start_offset.sectionIdx
                  ≠ offset.sectionIdx
              · rw [if_pos hd] at h
                simp at h
              · rw [if_neg hd] at h
                simp at h
          · simp only [lookupFunctionS, ho, hsc, hgp, hpb] at h
            have h3 := Option.some.inj h
            rw [Prod.mk.injEq] at h3
            obtain ⟨hopt, hs1⟩ := h3
            have h4 := Option.some.inj hopt
            have h5 := PublicOrProcedureSymbol.procedure.inj h4
            obtain ⟨hinv1, hm⟩ := getModuleProceduresS_spec ctx.env
              ((ctx.section_contributions.getD sc_index default).module_index)
              s procs s1 hinv hgp
            have hlen := (rustBinarySearchBy_ok (procCompare offset) procs pidx hpb).1
            have hne : procs ≠ [] := by
              intro hnil
              rw [hnil] at hlen
              simp at hlen
            obtain ⟨m, hmm⟩ := hm hne
            subst hs1
            rw [h5.1] at hmm
            refine ⟨hinv1, m, ?_⟩
            simp only [getModuleInfoS, hmm]

theorem c10_module_info_cached_witness :
    StateInv (⟨[(0, c5stream)], [(0, [⟨⟨1, 0⟩, 80, "foo", 0, 100, 0⟩])]⟩ : CtxState) ∧
    ∃ m, getModuleInfoS c1ctx.env 0
        ⟨[(0, c5stream)], [(0, [⟨⟨1, 0⟩, 80, "foo", 0, 100, 0⟩])]⟩ =
      (.ok (some m), ⟨[(0, c5stream)], [(0, [⟨⟨1, 0⟩, 80, "foo", 0, 100, 0⟩])]⟩) :=
  c10_module_info_cached c1ctx 5 ⟨[], []⟩ _ 0 ⟨⟨1, 0⟩, 80, "foo", 0, 100, 0⟩
    (fun i procs h => by simp [List.lookup] at h) rfl
